import Mathlib

/-!
# Verification of the vanilla MCTS engine (`src/mcts/src/mcts_vanilla.py`)

A shallow embedding of the Monte Carlo Tree Search engine.  The game rules
("Game Oracle", `p2_t3.Board`) are out of scope of the sources and are
modelled as an abstract capability record; the tree node class
(`mcts_node.MCTSNode`) is likewise absent from the sources and is modelled
from the spec.  Following the spec's design note, the tree is represented as
an arena: a list of nodes, where the parent back-reference and the
action → child mapping store indices into that list.  Loops of the Python
source become fuel-indexed recursions returning `Option` (with `none`
standing for non-termination within the fuel or for a raised exception).
-/

set_option maxHeartbeats 1600000

namespace MCTS

/-- Modelled from the spec: the Search Tree Node of `mcts_node.py`, which is
not among the provided sources.  Per spec §3/§4.1 a node holds `visits`,
`wins`, a non-owning parent back-reference, the action that led from the
parent (`parent_action`), the mutable set of untried actions and the
action → child mapping.  Per spec §9 the tree lives in an arena, so `parent`
and the child entries are indices into a node list. -/
structure MCTSNode (A : Type) where
  parent : Option Nat
  parent_action : Option A
  visits : Nat
  wins : Nat
  untried_actions : List A
  child_nodes : List (A × Nat)
  deriving Repr, DecidableEq

/-- The Game Oracle capability interface of spec §6 (`p2_t3.Board` is out of
scope of the sources); the engine is parametrised over it.  `points_values`
returns `none` exactly on states where the outcome mapping is undefined
(non-terminal states). -/
structure Board (S A : Type) where
  is_ended : S → Bool
  current_player : S → Nat
  legal_actions : S → List A
  next_state : S → A → S
  points_values : S → Option (Nat → ℚ)

/-- Modelled from the spec: node construction (spec §4.1) initialises
`visits = 0`, `wins = 0`, an empty child mapping and an untried-actions set
equal to the given legal-action list. -/
def mkNode {A : Type} (parent : Option Nat) (parent_action : Option A)
    (action_list : List A) : MCTSNode A :=
  { parent := parent, parent_action := parent_action, visits := 0, wins := 0,
    untried_actions := action_list, child_nodes := [] }

/-- Placeholder node returned by `nodeAt` on an out-of-range index (never
reached on well-formed arenas). -/
def dummyNode {A : Type} : MCTSNode A := mkNode none none []

/-- Arena lookup: dereference a node index. -/
def nodeAt {A : Type} : List (MCTSNode A) → Nat → MCTSNode A
  | [], _ => dummyNode
  | x :: _, 0 => x
  | _ :: l, n + 1 => nodeAt l n

/-- Arena update: in-place mutation of the node at an index. -/
def setNode {A : Type} : List (MCTSNode A) → Nat → MCTSNode A → List (MCTSNode A)
  | [], _, _ => []
  | _ :: l, 0, x => x :: l
  | y :: l, n + 1, x => y :: setNode l n x

/-- `num_nodes = 50`: the fixed iteration budget of `think`. -/
def num_nodes : Nat := 50

/-- `explore_constant = 2`: the fixed UCB exploration constant. -/
def explore_constant : Nat := 2

/-- `ucb(node, is_opponent)` from the source.  The Python code reads
`node.parent.visits`; in the arena embedding the caller passes that number as
`parent_visits` (selection always scores the children of the node it stands
on, so it passes that node's own visit count).  The float `inf` of the Python
source becomes `⊤ : EReal`; finite scores are real numbers. -/
noncomputable def ucb {A : Type} (node : MCTSNode A) (parent_visits : Nat)
    (is_opponent : Bool) : EReal :=
  if node.visits = 0 then (⊤ : EReal)
  else
    (((if is_opponent then 1 - (node.wins : ℝ) / (node.visits : ℝ)
       else (node.wins : ℝ) / (node.visits : ℝ)) +
      (explore_constant : ℝ) * Real.sqrt (Real.log (parent_visits : ℝ) / (node.visits : ℝ)) : ℝ) : EReal)

/-- `max(node.child_nodes.values(), key=lambda child: ucb(child, is_opponent),
default=None)` from `traverse_nodes`.  Python's `max` keeps the first
maximum: the accumulator is replaced only when a strictly greater key
appears. -/
noncomputable def bestChild {A : Type} (arena : List (MCTSNode A))
    (children : List (A × Nat)) (parent_visits : Nat) (is_opponent : Bool) : Option Nat :=
  match children with
  | [] => none
  | p :: rest =>
    some (rest.foldl
      (fun best q =>
        if ucb (nodeAt arena best) parent_visits is_opponent <
            ucb (nodeAt arena q.2) parent_visits is_opponent then q.2 else best)
      p.2)

/-- `traverse_nodes(node, board, state, bot_identity)`: the selection loop.
Fuel-indexed; `none` models non-termination (never reached on well-formed
arenas with sufficient fuel) and the crash of `board.next_state(state, None)`
were a root-like node ever selected as a child. -/
noncomputable def traverse_nodes {S A : Type} :
    Nat → Board S A → List (MCTSNode A) → Nat → S → Nat → Option (Nat × S)
  | 0, _, _, _, _, _ => none
  | fuel + 1, board, arena, idx, state, bot_identity =>
    if board.is_ended state then some (idx, state)
    else match (nodeAt arena idx).untried_actions with
    | _ :: _ => some (idx, state)
    | [] =>
      match bestChild arena (nodeAt arena idx).child_nodes (nodeAt arena idx).visits
          (board.current_player state != bot_identity) with
      | none => some (idx, state)
      | some c =>
        match (nodeAt arena c).parent_action with
        | none => none
        | some a => traverse_nodes fuel board arena c (board.next_state state a) bot_identity

/-- Python dict assignment `node.child_nodes[action] = child`: replace in
place if the key is present, else append (insertion order preserved). -/
def childInsert {A : Type} [DecidableEq A] : List (A × Nat) → A → Nat → List (A × Nat)
  | [], a, c => [(a, c)]
  | p :: rest, a, c => if p.1 = a then (a, c) :: rest else p :: childInsert rest a c

/-- `expand_leaf(node, board, state)`.  `untried_actions.pop()` removes an
implementation-defined element (spec §9: arbitrary, each action tried at most
once); it is modelled as removing the first element of the list.  Returns the
new arena, the index of the new child and the child's state; `none` models
the `pop` exception on an empty untried set (the call sites guard it). -/
def expand_leaf {S A : Type} [DecidableEq A] (board : Board S A)
    (arena : List (MCTSNode A)) (idx : Nat) (state : S) :
    Option (List (MCTSNode A) × Nat × S) :=
  match (nodeAt arena idx).untried_actions with
  | [] => none
  | action :: rest =>
    let next_state := board.next_state state action
    let node := nodeAt arena idx
    let child := mkNode (some idx) (some action) (board.legal_actions next_state)
    some ((setNode arena idx
        { node with untried_actions := rest,
                    child_nodes := childInsert node.child_nodes action arena.length })
        ++ [child],
      arena.length, next_state)

/-- The arena produced by a successful `expand_leaf` at node `idx` whose
untried list starts with `a`: node `idx` loses `a` from its untried set and
gains it as a child key, and the new child is appended at the end. -/
def expArena {S A : Type} [DecidableEq A] (B : Board S A) (arena : List (MCTSNode A))
    (idx : Nat) (s : S) (a : A) (rest : List A) : List (MCTSNode A) :=
  setNode arena idx
    { nodeAt arena idx with
      untried_actions := rest,
      child_nodes := childInsert (nodeAt arena idx).child_nodes a arena.length }
    ++ [mkNode (some idx) (some a) (B.legal_actions (B.next_state s a))]

/-- `rollout(board, state)`: random playout to a terminal state.
`random.choice(legal_actions)` is modelled by indexing with a supplied stream
of naturals reduced modulo the sequence length.  `none` models fuel
exhaustion and the `choice([])` exception on an empty legal-action list. -/
def rollout {S A : Type} : Nat → Board S A → S → (Nat → Nat) → Option S
  | 0, _, _, _ => none
  | fuel + 1, board, state, rng =>
    if board.is_ended state then some state
    else
      match board.legal_actions state with
      | [] => none
      | a :: rest =>
        rollout fuel board
          (board.next_state state ((a :: rest).getD (rng 0 % (rest.length + 1)) a))
          (fun k => rng (k + 1))

/-- The per-node statistics update of `backpropagate`: `visits += 1`, and
`wins += 1` exactly when `won`. -/
def incNode {A : Type} (n : MCTSNode A) (won : Bool) : MCTSNode A :=
  { n with visits := n.visits + 1, wins := n.wins + (if won then 1 else 0) }

/-- `backpropagate(node, won)`: walk the parent chain, updating every node on
it.  Fuel-indexed; on well-formed arenas a fuel of `arena.length + 1` always
suffices. -/
def backpropagate {A : Type} : Nat → List (MCTSNode A) → Option Nat → Bool → List (MCTSNode A)
  | 0, arena, _, _ => arena
  | _ + 1, arena, none, _ => arena
  | fuel + 1, arena, some i, won =>
    backpropagate fuel (setNode arena i (incNode (nodeAt arena i) won)) (nodeAt arena i).parent won

/-- The list of indices visited by `backpropagate` when started at the given
node reference: the parent chain, leaf first. -/
def chainTo {A : Type} : Nat → List (MCTSNode A) → Option Nat → List Nat
  | 0, _, _ => []
  | _ + 1, _, none => []
  | fuel + 1, arena, some i => i :: chainTo fuel arena (nodeAt arena i).parent

/-- The fold inside `get_best_action`: Python's `max(items, key=item[1].visits)`,
which keeps the first maximum. -/
def bestOf {A : Type} (arena : List (MCTSNode A)) : List (A × Nat) → Option (A × Nat)
  | [] => none
  | p :: rest =>
    some (rest.foldl
      (fun best q => if (nodeAt arena best.2).visits < (nodeAt arena q.2).visits then q else best)
      p)

/-- `get_best_action(root_node)`: the action of the root child with the most
visits.  `none` models the `ValueError` of `max` on an empty child mapping. -/
def get_best_action {A : Type} (arena : List (MCTSNode A)) : Option A :=
  (bestOf arena (nodeAt arena 0).child_nodes).map Prod.fst

/-- `is_win(board, state, identity_of_bot)`: `none` models the fatal
`assert outcome is not None` on a state without an outcome mapping; otherwise
`true` exactly when the bot's score equals 1. -/
def is_win {S A : Type} (board : Board S A) (state : S) (identity_of_bot : Nat) : Option Bool :=
  match board.points_values state with
  | none => none
  | some outcome => some (decide (outcome identity_of_bot = 1))

/-- The data produced by one iteration of `think`'s loop: the arena as it
stood when `backpropagate` was called (`pre`), the index of the node
backpropagation starts from (`idx`, the expansion result), the terminal state
of the rollout (`final`) and the arena after backpropagation (`post`). -/
structure IterResult (S A : Type) where
  pre : List (MCTSNode A)
  idx : Nat
  final : S
  post : List (MCTSNode A)

/-- The tail of one `think` iteration after selection/expansion: simulation
(`rollout`), outcome query (`is_win`) and `backpropagate`. -/
noncomputable def finishIter {S A : Type} (board : Board S A)
    (bot_identity rollout_fuel : Nat) (rng : Nat → Nat)
    (arena : List (MCTSNode A)) (idx : Nat) (state : S) : Option (IterResult S A) :=
  match rollout rollout_fuel board state rng with
  | none => none
  | some final_state =>
    match is_win board final_state bot_identity with
    | none => none
    | some won =>
      some ⟨arena, idx, final_state, backpropagate (arena.length + 1) arena (some idx) won⟩

/-- One iteration of `think`'s loop: selection from the root with the
original `current_state`, guarded expansion, simulation, backpropagation. -/
noncomputable def thinkIter {S A : Type} [DecidableEq A] (board : Board S A)
    (bot_identity rollout_fuel : Nat) (rng : Nat → Nat)
    (arena : List (MCTSNode A)) (current_state : S) : Option (IterResult S A) :=
  match traverse_nodes (arena.length + 1) board arena 0 current_state bot_identity with
  | none => none
  | some (idx, state) =>
    match (nodeAt arena idx).untried_actions with
    | [] => finishIter board bot_identity rollout_fuel rng arena idx state
    | _ :: _ =>
      match expand_leaf board arena idx state with
      | none => none
      | some (arena2, idx2, state2) => finishIter board bot_identity rollout_fuel rng arena2 idx2 state2

/-- `think`'s `for _ in range(num_nodes)` loop: run `n` iterations, each
starting from the root and the original `current_state`, threading the arena.
Each iteration consumes its own random stream `rng k`. -/
noncomputable def runIters {S A : Type} [DecidableEq A] (board : Board S A)
    (bot_identity rollout_fuel : Nat) :
    (Nat → Nat → Nat) → Nat → List (MCTSNode A) → S → Option (List (MCTSNode A))
  | _, 0, arena, _ => some arena
  | rng, n + 1, arena, current_state =>
    match thinkIter board bot_identity rollout_fuel (rng 0) arena current_state with
    | none => none
    | some r => runIters board bot_identity rollout_fuel (fun k => rng (k + 1)) n r.post current_state

/-- The tree `think` builds: root from the current state's legal actions, then
`num_nodes` iterations. -/
noncomputable def thinkArena {S A : Type} [DecidableEq A] (board : Board S A)
    (current_state : S) (rollout_fuel : Nat) (rng : Nat → Nat → Nat) :
    Option (List (MCTSNode A)) :=
  runIters board (board.current_player current_state) rollout_fuel rng num_nodes
    [mkNode none none (board.legal_actions current_state)] current_state

/-- `think(board, current_state)`: build the tree, then return
`get_best_action` of the root.  `none` models any uncaught exception. -/
noncomputable def think {S A : Type} [DecidableEq A] (board : Board S A)
    (current_state : S) (rollout_fuel : Nat) (rng : Nat → Nat → Nat) : Option A :=
  match thinkArena board current_state rollout_fuel rng with
  | none => none
  | some arena => get_best_action arena

/-- The maximum visit count over a child list (0 if empty). -/
def maxVisits {A : Type} (arena : List (MCTSNode A)) (l : List (A × Nat)) : Nat :=
  l.foldr (fun p m => max (nodeAt arena p.2).visits m) 0

/-- Spec-side action selector (§4.4, stated from the spec's words, to be
compared with `get_best_action`): the first key in the child mapping whose
child attains the maximum `visits` — "maximum visits, ties broken by
encounter order of the mapping (the first maximum wins)". -/
def specBestAction {A : Type} (arena : List (MCTSNode A)) (l : List (A × Nat)) : Option A :=
  (l.find? (fun p => (nodeAt arena p.2).visits == maxVisits arena l)).map Prod.fst

/-- A concrete oracle whose every state is already ended and has no legal
actions (used to exercise the terminal short-circuit). -/
def B0 : Board Nat Nat :=
  { is_ended := fun _ => true,
    current_player := fun _ => 1,
    legal_actions := fun _ => [],
    next_state := fun s _ => s,
    points_values := fun _ => some (fun _ => 1) }

/-- A concrete one-move game: state 0 is live with the single legal action 7
leading to the terminal state 1, which player 1 wins. -/
def B1 : Board Nat Nat :=
  { is_ended := fun s => s != 0,
    current_player := fun _ => 1,
    legal_actions := fun s => if s = 0 then [7] else [],
    next_state := fun _ _ => 1,
    points_values := fun s => if s = 0 then none else some (fun i => if i = 1 then 1 else 0) }

/-- A concrete root arena whose three children (keys 1, 2, 3 standing for the
spec's A, B, C) have visit counts 3, 7, 1. -/
def c4Arena : List (MCTSNode Nat) :=
  [{ parent := none, parent_action := none, visits := 11, wins := 0,
     untried_actions := [], child_nodes := [(1, 1), (2, 2), (3, 3)] },
   { parent := some 0, parent_action := some 1, visits := 3, wins := 0,
     untried_actions := [], child_nodes := [] },
   { parent := some 0, parent_action := some 2, visits := 7, wins := 0,
     untried_actions := [], child_nodes := [] },
   { parent := some 0, parent_action := some 3, visits := 1, wins := 0,
     untried_actions := [], child_nodes := [] }]

/-- The arena `think` builds on `B1` (root expanded once, then both nodes
visited on every one of the 50 iterations, all of them wins). -/
def arena50 : List (MCTSNode Nat) :=
  [{ parent := none, parent_action := none, visits := 50, wins := 50,
     untried_actions := [], child_nodes := [(7, 1)] },
   { parent := some 0, parent_action := some 7, visits := 50, wins := 50,
     untried_actions := [], child_nodes := [] }]

/-- The arena after the first expansion on `B1`, before backpropagation. -/
def preB1 : List (MCTSNode Nat) :=
  [{ parent := none, parent_action := none, visits := 0, wins := 0,
     untried_actions := [], child_nodes := [(7, 1)] },
   { parent := some 0, parent_action := some 7, visits := 0, wins := 0,
     untried_actions := [], child_nodes := [] }]

/-- The arena after the first full iteration on `B1`. -/
def postB1 : List (MCTSNode Nat) :=
  [{ parent := none, parent_action := none, visits := 1, wins := 1,
     untried_actions := [], child_nodes := [(7, 1)] },
   { parent := some 0, parent_action := some 7, visits := 1, wins := 1,
     untried_actions := [], child_nodes := [] }]

/-- The `IterResult` of the first `think` iteration on `B1`. -/
def r1B1 : IterResult Nat Nat := ⟨preB1, 1, 1, postB1⟩

/-! ## Structural invariants of the arena -/

/-- The keys of a node's child mapping. -/
def keysOf {A : Type} (n : MCTSNode A) : List A := n.child_nodes.map Prod.fst

/-- Structural well-formedness of the tree arena: nonempty, the root (index 0)
has no parent, every child entry points forward in the arena and back to its
parent with the registering action, and every non-root node has a parent with
a smaller index. -/
def InvS {A : Type} (arena : List (MCTSNode A)) : Prop :=
  0 < arena.length ∧
  (nodeAt arena 0).parent = none ∧
  (∀ i, i < arena.length → ∀ p ∈ (nodeAt arena i).child_nodes,
    i < p.2 ∧ p.2 < arena.length ∧ (nodeAt arena p.2).parent = some i ∧
      (nodeAt arena p.2).parent_action = some p.1) ∧
  (∀ i, i < arena.length → 0 < i → ∃ j, (nodeAt arena i).parent = some j ∧ j < i)

/-- Parent references strictly decrease (consequence of `InvS`, in the
unconditional form the backpropagation lemmas use). -/
def Pdec {A : Type} (arena : List (MCTSNode A)) : Prop :=
  ∀ k j, (nodeAt arena k).parent = some j → j < k

/-- `wins ≤ visits` on every node. -/
def WLV {A : Type} (arena : List (MCTSNode A)) : Prop :=
  ∀ i, i < arena.length → (nodeAt arena i).wins ≤ (nodeAt arena i).visits

/-- Every node that has acquired a child has been visited at least once. -/
def CV1 {A : Type} (arena : List (MCTSNode A)) : Prop :=
  ∀ i, i < arena.length → (nodeAt arena i).child_nodes ≠ [] → 1 ≤ (nodeAt arena i).visits

/-- The state a node stands for: the root carries the search's initial state,
and every other node carries `next_state` of its parent's state and its
`parent_action`.  Fuel-indexed recursion along the parent chain (`i + 1` fuel
suffices on well-formed arenas). -/
def nodeState {S A : Type} (B : Board S A) (s0 : S) (arena : List (MCTSNode A)) :
    Nat → Nat → Option S
  | 0, _ => none
  | _ + 1, 0 => some s0
  | fuel + 1, i =>
    match (nodeAt arena i).parent, (nodeAt arena i).parent_action with
    | some j, some a =>
      match nodeState B s0 arena fuel j with
      | some sp => some (B.next_state sp a)
      | none => none
    | _, _ => none

/-- The partition invariant: every node's untried actions together with its
child keys are a permutation of the legal actions of the state the node
stands for. -/
def PART {S A : Type} (B : Board S A) (s0 : S) (arena : List (MCTSNode A)) : Prop :=
  ∀ i, i < arena.length → ∃ s, nodeState B s0 arena (i + 1) i = some s ∧
    ((nodeAt arena i).untried_actions ++ keysOf (nodeAt arena i)).Perm (B.legal_actions s)

/-- The root's untried actions and child keys always come from the legal
actions of the search's initial state. -/
def SUB {S A : Type} (B : Board S A) (s0 : S) (arena : List (MCTSNode A)) : Prop :=
  (nodeAt arena 0).untried_actions ⊆ B.legal_actions s0 ∧
  keysOf (nodeAt arena 0) ⊆ B.legal_actions s0

/-! ## Basic arena lemmas -/

theorem length_setNode {A : Type} : ∀ (l : List (MCTSNode A)) (i : Nat) (x : MCTSNode A),
    (setNode l i x).length = l.length
  | [], _, _ => rfl
  | _ :: l, 0, x => rfl
  | y :: l, n + 1, x => by simp [setNode, length_setNode l n x]

theorem nodeAt_setNode_self {A : Type} : ∀ (l : List (MCTSNode A)) (i : Nat) (x : MCTSNode A),
    i < l.length → nodeAt (setNode l i x) i = x
  | [], i, x, h => absurd h (by simp)
  | _ :: l, 0, x, _ => rfl
  | y :: l, n + 1, x, h => nodeAt_setNode_self l n x (by simpa using h)

theorem nodeAt_setNode_ne {A : Type} : ∀ (l : List (MCTSNode A)) (i : Nat) (x : MCTSNode A)
    (j : Nat), j ≠ i → nodeAt (setNode l i x) j = nodeAt l j
  | [], _, _, _, _ => rfl
  | _ :: l, 0, x, 0, h => absurd rfl h
  | _ :: l, 0, x, j + 1, _ => rfl
  | y :: l, n + 1, x, 0, _ => rfl
  | y :: l, n + 1, x, j + 1, h => nodeAt_setNode_ne l n x j (fun e => h (by simp [e]))

theorem nodeAt_append_lt {A : Type} : ∀ (l : List (MCTSNode A)) (x : MCTSNode A) (j : Nat),
    j < l.length → nodeAt (l ++ [x]) j = nodeAt l j
  | [], x, j, h => absurd h (by simp)
  | y :: l, x, 0, _ => rfl
  | y :: l, x, j + 1, h => nodeAt_append_lt l x j (by simpa using h)

theorem nodeAt_append_self {A : Type} : ∀ (l : List (MCTSNode A)) (x : MCTSNode A),
    nodeAt (l ++ [x]) l.length = x
  | [], x => rfl
  | y :: l, x => nodeAt_append_self l x

@[simp] theorem incNode_parent {A : Type} (n : MCTSNode A) (w : Bool) :
    (incNode n w).parent = n.parent := rfl

@[simp] theorem incNode_parent_action {A : Type} (n : MCTSNode A) (w : Bool) :
    (incNode n w).parent_action = n.parent_action := rfl

@[simp] theorem incNode_untried {A : Type} (n : MCTSNode A) (w : Bool) :
    (incNode n w).untried_actions = n.untried_actions := rfl

@[simp] theorem incNode_children {A : Type} (n : MCTSNode A) (w : Bool) :
    (incNode n w).child_nodes = n.child_nodes := rfl

@[simp] theorem incNode_visits {A : Type} (n : MCTSNode A) (w : Bool) :
    (incNode n w).visits = n.visits + 1 := rfl

@[simp] theorem incNode_wins {A : Type} (n : MCTSNode A) (w : Bool) :
    (incNode n w).wins = n.wins + (if w then 1 else 0) := rfl

theorem mem_childInsert {A : Type} [DecidableEq A] :
    ∀ (cs : List (A × Nat)) (a : A) (c : Nat) (p : A × Nat),
      p ∈ childInsert cs a c → p = (a, c) ∨ p ∈ cs
  | [], a, c, p, h => by simpa [childInsert] using h
  | q :: rest, a, c, p, h => by
    by_cases hq : q.1 = a
    · simp [childInsert, hq] at h
      rcases h with h | h
      · exact Or.inl (by simp [h])
      · exact Or.inr (by simp [h])
    · simp [childInsert, hq] at h
      rcases h with h | h
      · exact Or.inr (by simp [h])
      · rcases mem_childInsert rest a c p h with h' | h'
        · exact Or.inl h'
        · exact Or.inr (by simp [h'])

theorem childInsert_of_not_mem {A : Type} [DecidableEq A] :
    ∀ (cs : List (A × Nat)) (a : A) (c : Nat), a ∉ cs.map Prod.fst →
      childInsert cs a c = cs ++ [(a, c)]
  | [], a, c, _ => rfl
  | q :: rest, a, c, h => by
    have hq : q.1 ≠ a := by
      intro e
      exact h (by simp [← e])
    simp [childInsert, hq]
    exact childInsert_of_not_mem rest a c (fun hm => h (by simp [hm]))

theorem nodeAt_of_le {A : Type} : ∀ (l : List (MCTSNode A)) (j : Nat),
    l.length ≤ j → nodeAt l j = dummyNode
  | [], _, _ => rfl
  | y :: l, 0, h => absurd h (by simp)
  | y :: l, j + 1, h => nodeAt_of_le l j (by simpa using h)

theorem invS_pdec {A : Type} {arena : List (MCTSNode A)} (h : InvS arena) : Pdec arena := by
  intro k j hk
  rcases h with ⟨-, h0, -, hp⟩
  by_cases hlen : k < arena.length
  · rcases Nat.eq_zero_or_pos k with rfl | hk0
    · rw [h0] at hk
      cases hk
    · rcases hp k hlen hk0 with ⟨j', hj', hlt⟩
      rw [hk] at hj'
      cases hj'
      exact hlt
  · rw [nodeAt_of_le arena k (Nat.le_of_not_lt hlen)] at hk
    cases hk

/-! ## Backpropagation walks the parent chain -/

theorem chainTo_congr {A : Type} {a a' : List (MCTSNode A)}
    (h : ∀ j, (nodeAt a' j).parent = (nodeAt a j).parent) :
    ∀ (f : Nat) (o : Option Nat), chainTo f a' o = chainTo f a o := by
  intro f
  induction f with
  | zero => intro o; rfl
  | succ f ih =>
    intro o
    cases o with
    | none => rfl
    | some i => simp [chainTo, h i, ih]

theorem chain_mem_le {A : Type} {arena : List (MCTSNode A)} (hp : Pdec arena) :
    ∀ (f : Nat) (i : Nat), ∀ k ∈ chainTo f arena (some i), k ≤ i := by
  intro f
  induction f with
  | zero => intro i k hk; simp [chainTo] at hk
  | succ f ih =>
    intro i k hk
    simp only [chainTo] at hk
    rcases List.mem_cons.mp hk with rfl | hk
    · exact Nat.le_refl k
    · cases hpar : (nodeAt arena i).parent with
      | none => rw [hpar] at hk; cases f <;> simp [chainTo] at hk
      | some j =>
        rw [hpar] at hk
        exact Nat.le_of_lt (Nat.lt_of_le_of_lt (ih j k hk) (hp i j hpar))

theorem chain_head {A : Type} (arena : List (MCTSNode A)) (f i : Nat) :
    i ∈ chainTo (f + 1) arena (some i) := by
  simp [chainTo]

theorem chain_reaches_root {A : Type} {arena : List (MCTSNode A)} (h : InvS arena) :
    ∀ (f : Nat) (i : Nat), i < arena.length → i < f → 0 ∈ chainTo f arena (some i) := by
  intro f
  induction f with
  | zero => intro i _ hf; cases hf
  | succ f ih =>
    intro i hi hf
    rcases Nat.eq_zero_or_pos i with rfl | hi0
    · simp [chainTo]
    · rcases h.2.2.2 i hi hi0 with ⟨j, hj, hlt⟩
      simp only [chainTo, hj]
      exact List.mem_cons_of_mem _ (ih j (Nat.lt_trans hlt hi) (Nat.lt_of_lt_of_le hlt (Nat.lt_succ_iff.mp hf)))

theorem length_backpropagate {A : Type} (w : Bool) : ∀ (f : Nat) (a : List (MCTSNode A)) (o : Option Nat),
    (backpropagate f a o w).length = a.length := by
  intro f
  induction f with
  | zero => intro a o; rfl
  | succ f ih =>
    intro a o
    cases o with
    | none => rfl
    | some i => simp [backpropagate, ih, length_setNode]

theorem setNode_parent_eq {A : Type} (a : List (MCTSNode A)) (i : Nat) (w : Bool)
    (hi : i < a.length) :
    ∀ j, (nodeAt (setNode a i (incNode (nodeAt a i) w)) j).parent = (nodeAt a j).parent := by
  intro j
  by_cases hj : j = i
  · subst hj; rw [nodeAt_setNode_self a j _ hi]; rfl
  · rw [nodeAt_setNode_ne a i _ j hj]

theorem backprop_spec {A : Type} (w : Bool) :
    ∀ (f : Nat) (a : List (MCTSNode A)) (i : Nat), Pdec a → i < a.length → i < f →
      (∀ j ∈ chainTo f a (some i),
        nodeAt (backpropagate f a (some i) w) j = incNode (nodeAt a j) w) ∧
      (∀ j, j ∉ chainTo f a (some i) →
        nodeAt (backpropagate f a (some i) w) j = nodeAt a j) := by
  intro f
  induction f with
  | zero => intro a i _ _ hf; cases hf
  | succ f ih =>
    intro a i hp hi hf
    have hpar := setNode_parent_eq a i w hi
    set a1 := setNode a i (incNode (nodeAt a i) w) with ha1
    have hlen1 : a1.length = a.length := length_setNode a i _
    have hp1 : Pdec a1 := by
      intro k j hk
      exact hp k j ((hpar k).symm.trans hk)
    have hcongr := chainTo_congr hpar
    cases hparent : (nodeAt a i).parent with
    | none =>
      have hchain : chainTo (f + 1) a (some i) = [i] := by
        cases f <;> simp [chainTo, hparent]
      have hback : backpropagate (f + 1) a (some i) w = a1 := by
        cases f <;> simp [backpropagate, hparent, ← ha1]
      constructor
      · intro j hj
        rw [hchain] at hj
        simp at hj
        rw [hj, hback, ha1, nodeAt_setNode_self a i _ hi]
      · intro j hj
        rw [hchain] at hj
        simp at hj
        rw [hback, ha1, nodeAt_setNode_ne a i _ j hj]
    | some p =>
      have hpi : p < i := hp i p hparent
      have hplen : p < a1.length := by rw [hlen1]; exact Nat.lt_trans hpi hi
      have hpf : p < f := Nat.lt_of_lt_of_le hpi (Nat.lt_succ_iff.mp hf)
      have hrec : backpropagate (f + 1) a (some i) w = backpropagate f a1 (some p) w := by
        simp [backpropagate, hparent, ← ha1]
      have hchain : chainTo (f + 1) a (some i) = i :: chainTo f a (some p) := by
        simp [chainTo, hparent]
      rcases ih a1 p hp1 hplen hpf with ⟨hin, hout⟩
      have htail : chainTo f a1 (some p) = chainTo f a (some p) := hcongr f (some p)
      constructor
      · intro j hj
        rw [hchain] at hj
        rcases List.mem_cons.mp hj with hje | hj
        · have hnot : i ∉ chainTo f a1 (some p) := by
            rw [htail]
            intro hmem
            exact absurd (chain_mem_le hp f p i hmem) (Nat.not_le_of_lt hpi)
          rw [hje, hrec, hout i hnot, ha1, nodeAt_setNode_self a i _ hi]
        · have hji : j ≠ i :=
            Nat.ne_of_lt (Nat.lt_of_le_of_lt (chain_mem_le hp f p j hj) hpi)
          rw [hrec, hin j (by rw [htail]; exact hj), ha1, nodeAt_setNode_ne a i _ j hji]
      · intro j hj
        rw [hchain] at hj
        have hji : j ≠ i := fun e => hj (by rw [e]; exact List.mem_cons_self i _)
        have hjt : j ∉ chainTo f a1 (some p) := by
          rw [htail]
          exact fun hm => hj (List.mem_cons_of_mem _ hm)
        rw [hrec, hout j hjt, ha1, nodeAt_setNode_ne a i _ j hji]

theorem backprop_fields {A : Type} (w : Bool) {f : Nat} {a : List (MCTSNode A)} {i : Nat}
    (hp : Pdec a) (hi : i < a.length) (hf : i < f) : ∀ j,
    (nodeAt (backpropagate f a (some i) w) j).parent = (nodeAt a j).parent ∧
    (nodeAt (backpropagate f a (some i) w) j).parent_action = (nodeAt a j).parent_action ∧
    (nodeAt (backpropagate f a (some i) w) j).untried_actions = (nodeAt a j).untried_actions ∧
    (nodeAt (backpropagate f a (some i) w) j).child_nodes = (nodeAt a j).child_nodes := by
  intro j
  rcases backprop_spec w f a i hp hi hf with ⟨hin, hout⟩
  by_cases hj : j ∈ chainTo f a (some i)
  · rw [hin j hj]; exact ⟨rfl, rfl, rfl, rfl⟩
  · rw [hout j hj]; exact ⟨rfl, rfl, rfl, rfl⟩

theorem backprop_visits_mono {A : Type} {w : Bool} {f : Nat} {a : List (MCTSNode A)} {i : Nat}
    (hp : Pdec a) (hi : i < a.length) (hf : i < f) : ∀ j,
    (nodeAt a j).visits ≤ (nodeAt (backpropagate f a (some i) w) j).visits := by
  intro j
  rcases backprop_spec w f a i hp hi hf with ⟨hin, hout⟩
  by_cases hj : j ∈ chainTo f a (some i)
  · rw [hin j hj]; exact Nat.le_succ _
  · rw [hout j hj]

theorem backprop_invS {A : Type} {w : Bool} {f : Nat} {a : List (MCTSNode A)} {i : Nat}
    (h : InvS a) (hi : i < a.length) (hf : i < f) :
    InvS (backpropagate f a (some i) w) := by
  have hp := invS_pdec h
  have hfld := backprop_fields w hp hi hf
  have hlen := length_backpropagate w f a (some i)
  refine ⟨by rw [hlen]; exact h.1, (hfld 0).1.trans h.2.1, ?_, ?_⟩
  · intro k hk p hpmem
    rw [hlen] at hk
    rw [(hfld k).2.2.2] at hpmem
    rcases h.2.2.1 k hk p hpmem with ⟨h1, h2, h3, h4⟩
    exact ⟨h1, by rw [hlen]; exact h2, (hfld p.2).1.trans h3, (hfld p.2).2.1.trans h4⟩
  · intro k hk hk0
    rw [hlen] at hk
    rcases h.2.2.2 k hk hk0 with ⟨j, hj, hlt⟩
    exact ⟨j, (hfld k).1.trans hj, hlt⟩

theorem backprop_wlv {A : Type} {w : Bool} {f : Nat} {a : List (MCTSNode A)} {i : Nat}
    (hp : Pdec a) (hi : i < a.length) (hf : i < f) (h : WLV a) :
    WLV (backpropagate f a (some i) w) := by
  intro j hj
  rw [length_backpropagate] at hj
  rcases backprop_spec w f a i hp hi hf with ⟨hin, hout⟩
  by_cases hc : j ∈ chainTo f a (some i)
  · rw [hin j hc]
    simp only [incNode_wins, incNode_visits]
    have := h j hj
    cases w <;> simp <;> omega
  · rw [hout j hc]
    exact h j hj

theorem backprop_cv1 {A : Type} {w : Bool} {f : Nat} {a : List (MCTSNode A)} {i : Nat}
    (hp : Pdec a) (hi : i < a.length) (hf : i < f)
    (h : ∀ j, j < a.length → (nodeAt a j).child_nodes ≠ [] →
      1 ≤ (nodeAt a j).visits ∨ j ∈ chainTo f a (some i)) :
    CV1 (backpropagate f a (some i) w) := by
  intro j hj hc
  rw [length_backpropagate] at hj
  rcases backprop_spec w f a i hp hi hf with ⟨hin, hout⟩
  have hcpre : (nodeAt a j).child_nodes ≠ [] := by
    rw [← (backprop_fields w hp hi hf j).2.2.2]
    exact hc
  rcases h j hj hcpre with h1 | h1
  · exact Nat.le_trans h1 (backprop_visits_mono hp hi hf j)
  · rw [hin j h1]
    simp

/-! ## Expansion: one action moves from the untried set to the child mapping -/

theorem expand_leaf_eq {S A : Type} [DecidableEq A] (B : Board S A)
    {arena : List (MCTSNode A)} {idx : Nat} (s : S) {a : A} {rest : List A}
    (hu : (nodeAt arena idx).untried_actions = a :: rest) :
    expand_leaf B arena idx s = some (expArena B arena idx s a rest, arena.length, B.next_state s a) := by
  simp [expand_leaf, hu, expArena]

theorem expand_spec {S A : Type} [DecidableEq A] (B : Board S A)
    {arena : List (MCTSNode A)} {idx : Nat} (s : S) {a : A} {rest : List A}
    (h : InvS arena) (hidx : idx < arena.length)
    (hu : (nodeAt arena idx).untried_actions = a :: rest) :
    (expArena B arena idx s a rest).length = arena.length + 1 ∧
    nodeAt (expArena B arena idx s a rest) arena.length =
      mkNode (some idx) (some a) (B.legal_actions (B.next_state s a)) ∧
    (nodeAt (expArena B arena idx s a rest) idx).untried_actions = rest ∧
    (nodeAt (expArena B arena idx s a rest) idx).child_nodes =
      childInsert (nodeAt arena idx).child_nodes a arena.length ∧
    (∀ j, j < arena.length →
      (nodeAt (expArena B arena idx s a rest) j).parent = (nodeAt arena j).parent ∧
      (nodeAt (expArena B arena idx s a rest) j).parent_action = (nodeAt arena j).parent_action ∧
      (nodeAt (expArena B arena idx s a rest) j).visits = (nodeAt arena j).visits ∧
      (nodeAt (expArena B arena idx s a rest) j).wins = (nodeAt arena j).wins) ∧
    (∀ j, j ≠ idx → j < arena.length →
      nodeAt (expArena B arena idx s a rest) j = nodeAt arena j) ∧
    InvS (expArena B arena idx s a rest) := by
  have hlenset : (setNode arena idx
      { nodeAt arena idx with
        untried_actions := rest,
        child_nodes := childInsert (nodeAt arena idx).child_nodes a arena.length }).length
      = arena.length := length_setNode arena idx _
  have hlen2 : (expArena B arena idx s a rest).length = arena.length + 1 := by
    rw [expArena]
    simp [hlenset]
  have hnew : nodeAt (expArena B arena idx s a rest) arena.length =
      mkNode (some idx) (some a) (B.legal_actions (B.next_state s a)) := by
    rw [expArena]
    have hsf := nodeAt_append_self
      (setNode arena idx
        { nodeAt arena idx with
          untried_actions := rest,
          child_nodes := childInsert (nodeAt arena idx).child_nodes a arena.length })
      (mkNode (some idx) (some a) (B.legal_actions (B.next_state s a)))
    rw [hlenset] at hsf
    exact hsf
  have hat : ∀ j, j < arena.length → nodeAt (expArena B arena idx s a rest) j =
      nodeAt (setNode arena idx
        { nodeAt arena idx with
          untried_actions := rest,
          child_nodes := childInsert (nodeAt arena idx).child_nodes a arena.length }) j := by
    intro j hj
    rw [expArena]
    exact nodeAt_append_lt _ _ j (by rw [hlenset]; exact hj)
  have hatidx : nodeAt (expArena B arena idx s a rest) idx =
      { nodeAt arena idx with
        untried_actions := rest,
        child_nodes := childInsert (nodeAt arena idx).child_nodes a arena.length } := by
    rw [hat idx hidx]
    exact nodeAt_setNode_self arena idx _ hidx
  have hatne : ∀ j, j ≠ idx → j < arena.length →
      nodeAt (expArena B arena idx s a rest) j = nodeAt arena j := by
    intro j hne hj
    rw [hat j hj]
    exact nodeAt_setNode_ne arena idx _ j hne
  have hfld : ∀ j, j < arena.length →
      (nodeAt (expArena B arena idx s a rest) j).parent = (nodeAt arena j).parent ∧
      (nodeAt (expArena B arena idx s a rest) j).parent_action = (nodeAt arena j).parent_action ∧
      (nodeAt (expArena B arena idx s a rest) j).visits = (nodeAt arena j).visits ∧
      (nodeAt (expArena B arena idx s a rest) j).wins = (nodeAt arena j).wins := by
    intro j hj
    by_cases hje : j = idx
    · rw [hje, hatidx]
      exact ⟨rfl, rfl, rfl, rfl⟩
    · rw [hatne j hje hj]
      exact ⟨rfl, rfl, rfl, rfl⟩
  refine ⟨hlen2, hnew, by rw [hatidx], by rw [hatidx], hfld, hatne, ?_⟩
  refine ⟨by rw [hlen2]; exact Nat.lt_succ_of_lt h.1, (hfld 0 h.1).1.trans h.2.1, ?_, ?_⟩
  · intro k hk p hp
    rw [hlen2] at hk
    rcases Nat.lt_succ_iff_lt_or_eq.mp hk with hk | hk
    · by_cases hke : k = idx
      · rw [hke, hatidx] at hp
        have hp' : p = (a, arena.length) ∨ p ∈ (nodeAt arena idx).child_nodes :=
          mem_childInsert _ a arena.length p hp
        rcases hp' with rfl | hp'
        · refine ⟨by rw [hke]; exact hidx, by rw [hlen2]; exact Nat.lt_succ_self _, ?_, ?_⟩
          · rw [hnew, hke]; rfl
          · rw [hnew]; rfl
        · rcases h.2.2.1 idx hidx p hp' with ⟨h1, h2, h3, h4⟩
          refine ⟨by rw [hke]; exact h1, by rw [hlen2]; exact Nat.lt_succ_of_lt h2, ?_, ?_⟩
          · rw [(hfld p.2 h2).1, h3, hke]
          · rw [(hfld p.2 h2).2.1, h4]
      · rw [hatne k hke hk] at hp
        rcases h.2.2.1 k hk p hp with ⟨h1, h2, h3, h4⟩
        exact ⟨h1, by rw [hlen2]; exact Nat.lt_succ_of_lt h2,
          (hfld p.2 h2).1.trans h3, (hfld p.2 h2).2.1.trans h4⟩
    · rw [hk, hnew] at hp
      simp [mkNode] at hp
  · intro k hk hk0
    rw [hlen2] at hk
    rcases Nat.lt_succ_iff_lt_or_eq.mp hk with hk | hk
    · rcases h.2.2.2 k hk hk0 with ⟨j, hj, hlt⟩
      exact ⟨j, (hfld k hk).1.trans hj, hlt⟩
    · refine ⟨idx, ?_, by rw [hk]; exact hidx⟩
      rw [hk, hnew]
      rfl

/-! ## Selection returns a valid node; anatomy of one iteration -/

theorem foldBest_mem {A : Type} (arena : List (MCTSNode A)) (pv : Nat) (opp : Bool) :
    ∀ (t : List (A × Nat)) (b : Nat),
      t.foldl (fun best q => if ucb (nodeAt arena best) pv opp <
        ucb (nodeAt arena q.2) pv opp then q.2 else best) b = b ∨
      ∃ q ∈ t, t.foldl (fun best q => if ucb (nodeAt arena best) pv opp <
        ucb (nodeAt arena q.2) pv opp then q.2 else best) b = q.2 := by
  intro t
  induction t with
  | nil => intro b; exact Or.inl rfl
  | cons q t ih =>
    intro b
    simp only [List.foldl_cons]
    rcases ih (if ucb (nodeAt arena b) pv opp < ucb (nodeAt arena q.2) pv opp then q.2 else b) with
      he | ⟨p, hp, hpe⟩
    · rw [he]
      by_cases hc : ucb (nodeAt arena b) pv opp < ucb (nodeAt arena q.2) pv opp
      · exact Or.inr ⟨q, List.mem_cons_self q t, by rw [if_pos hc]⟩
      · exact Or.inl (by rw [if_neg hc])
    · exact Or.inr ⟨p, List.mem_cons_of_mem q hp, hpe⟩

theorem bestChild_mem {A : Type} {arena : List (MCTSNode A)} {cs : List (A × Nat)}
    {pv : Nat} {opp : Bool} {c : Nat} (h : bestChild arena cs pv opp = some c) :
    ∃ x, (x, c) ∈ cs := by
  cases cs with
  | nil => simp [bestChild] at h
  | cons p t =>
    simp only [bestChild, Option.some.injEq] at h
    rcases foldBest_mem arena pv opp t p.2 with he | ⟨q, hq, hqe⟩
    · have hpc : p.2 = c := he.symm.trans h
      exact ⟨p.1, by rw [← hpc]; exact List.mem_cons_self p t⟩
    · have hqc : q.2 = c := hqe.symm.trans h
      exact ⟨q.1, by rw [← hqc]; exact List.mem_cons_of_mem p hq⟩

theorem traverse_sound {S A : Type} {B : Board S A} {arena : List (MCTSNode A)} {bot : Nat}
    (h : InvS arena) :
    ∀ (f : Nat) (idx : Nat) (s : S) (j : Nat) (s' : S), idx < arena.length →
      traverse_nodes f B arena idx s bot = some (j, s') → idx ≤ j ∧ j < arena.length := by
  intro f
  induction f with
  | zero => intro idx s j s' _ ht; cases ht
  | succ f ih =>
    intro idx s j s' hidx ht
    rw [traverse_nodes] at ht
    by_cases hend : B.is_ended s
    · rw [if_pos hend] at ht
      cases ht
      exact ⟨Nat.le_refl _, hidx⟩
    · rw [if_neg hend] at ht
      cases hu : (nodeAt arena idx).untried_actions with
      | cons a rest =>
        simp only [hu] at ht
        cases ht
        exact ⟨Nat.le_refl _, hidx⟩
      | nil =>
        simp only [hu] at ht
        cases hbc : bestChild arena (nodeAt arena idx).child_nodes (nodeAt arena idx).visits
            (B.current_player s != bot) with
        | none =>
          simp only [hbc] at ht
          cases ht
          exact ⟨Nat.le_refl _, hidx⟩
        | some c =>
          simp only [hbc] at ht
          rcases bestChild_mem hbc with ⟨x, hx⟩
          rcases h.2.2.1 idx hidx (x, c) hx with ⟨hlt, hclen, -, hpa⟩
          have hlt' : idx < c := hlt
          have hclen' : c < arena.length := hclen
          have hpa' : (nodeAt arena c).parent_action = some x := hpa
          simp only [hpa'] at ht
          rcases ih c (B.next_state s x) j s' hclen' ht with ⟨h1, h2⟩
          exact ⟨Nat.le_of_lt (Nat.lt_of_lt_of_le hlt' h1), h2⟩

theorem finishIter_some {S A : Type} {B : Board S A} {bot rf : Nat} {rho : Nat → Nat}
    {a2 : List (MCTSNode A)} {idx2 : Nat} {st2 : S} {r : IterResult S A}
    (hf : finishIter B bot rf rho a2 idx2 st2 = some r) :
    r.pre = a2 ∧ r.idx = idx2 ∧ ∃ won, is_win B r.final bot = some won ∧
      r.post = backpropagate (a2.length + 1) a2 (some idx2) won := by
  rw [finishIter] at hf
  cases hro : rollout rf B st2 rho with
  | none => simp only [hro] at hf; cases hf
  | some fs =>
    simp only [hro] at hf
    cases hw : is_win B fs bot with
    | none => simp only [hw] at hf; cases hf
    | some won =>
      simp only [hw] at hf
      cases hf
      exact ⟨rfl, rfl, won, hw, rfl⟩

theorem thinkIter_core {S A : Type} [DecidableEq A] {B : Board S A} {bot rf : Nat}
    {rho : Nat → Nat} {arena : List (MCTSNode A)} {s0 : S} {r : IterResult S A}
    (h : InvS arena) (ht : thinkIter B bot rf rho arena s0 = some r) :
    ∃ j st, traverse_nodes (arena.length + 1) B arena 0 s0 bot = some (j, st) ∧
      j < arena.length ∧
      (((nodeAt arena j).untried_actions = [] ∧ r.pre = arena ∧ r.idx = j) ∨
        (∃ a rest, (nodeAt arena j).untried_actions = a :: rest ∧
          r.pre = expArena B arena j st a rest ∧ r.idx = arena.length)) ∧
      InvS r.pre ∧ r.idx < r.pre.length ∧ arena.length ≤ r.pre.length ∧
      (∀ k, k < arena.length → (nodeAt r.pre k).visits = (nodeAt arena k).visits ∧
        (nodeAt r.pre k).wins = (nodeAt arena k).wins) ∧
      ∃ won, is_win B r.final bot = some won ∧
        r.post = backpropagate (r.pre.length + 1) r.pre (some r.idx) won := by
  rw [thinkIter] at ht
  cases htr : traverse_nodes (arena.length + 1) B arena 0 s0 bot with
  | none => rw [htr] at ht; cases ht
  | some p =>
    obtain ⟨j, st⟩ := p
    simp only [htr] at ht
    have hj : j < arena.length := (traverse_sound h (arena.length + 1) 0 s0 j st h.1 htr).2
    refine ⟨j, st, rfl, hj, ?_⟩
    cases hu : (nodeAt arena j).untried_actions with
    | nil =>
      simp only [hu] at ht
      rcases finishIter_some ht with ⟨hpre, hidx, hrest⟩
      refine ⟨Or.inl ⟨rfl, hpre, hidx⟩, by rw [hpre]; exact h, by rw [hpre, hidx]; exact hj,
        by rw [hpre], by intro k hk; rw [hpre]; exact ⟨rfl, rfl⟩, ?_⟩
      rw [hpre, hidx]
      exact hrest
    | cons a rest =>
      simp only [hu, expand_leaf_eq B st hu] at ht
      rcases finishIter_some ht with ⟨hpre, hidx, hrest⟩
      rcases expand_spec B st h hj hu with
        ⟨hlen2, hnew, hun, hch, hfld, hne, hinv⟩
      refine ⟨Or.inr ⟨a, rest, rfl, hpre, hidx⟩, by rw [hpre]; exact hinv, ?_, ?_, ?_, ?_⟩
      · rw [hpre, hidx, hlen2]
        exact Nat.lt_succ_self _
      · rw [hpre, hlen2]
        exact Nat.le_succ _
      · intro k hk
        rw [hpre]
        exact ⟨(hfld k hk).2.2.1, (hfld k hk).2.2.2⟩
      · rw [hpre, hidx]
        exact hrest

theorem thinkIter_root {S A : Type} [DecidableEq A] {B : Board S A} {bot rf : Nat}
    {rho : Nat → Nat} {arena : List (MCTSNode A)} {s0 : S} {r : IterResult S A}
    (h : InvS arena) (ht : thinkIter B bot rf rho arena s0 = some r) :
    InvS r.post ∧ (nodeAt r.post 0).visits = (nodeAt arena 0).visits + 1 := by
  rcases thinkIter_core h ht with
    ⟨j, st, -, -, -, hpre, hidxlt, hlenle, hvw, won, -, hpost⟩
  have hp := invS_pdec hpre
  have hflt : r.idx < r.pre.length + 1 := Nat.lt_succ_of_lt hidxlt
  have hroot : 0 ∈ chainTo (r.pre.length + 1) r.pre (some r.idx) :=
    chain_reaches_root hpre (r.pre.length + 1) r.idx hidxlt hflt
  rcases backprop_spec won (r.pre.length + 1) r.pre r.idx hp hidxlt hflt with ⟨hin, -⟩
  constructor
  · rw [hpost]
    exact backprop_invS hpre hidxlt hflt
  · rw [hpost, hin 0 hroot]
    simp only [incNode_visits]
    rw [(hvw 0 h.1).1]

theorem runIters_visits {S A : Type} [DecidableEq A] {B : Board S A} {bot rf : Nat} {s0 : S} :
    ∀ (n : Nat) (rng : Nat → Nat → Nat) (arena a' : List (MCTSNode A)), InvS arena →
      runIters B bot rf rng n arena s0 = some a' →
      InvS a' ∧ (nodeAt a' 0).visits = (nodeAt arena 0).visits + n := by
  intro n
  induction n with
  | zero =>
    intro rng arena a' h hr
    cases hr
    exact ⟨h, rfl⟩
  | succ n ih =>
    intro rng arena a' h hr
    rw [runIters] at hr
    cases hti : thinkIter B bot rf (rng 0) arena s0 with
    | none => rw [hti] at hr; cases hr
    | some r =>
      rw [hti] at hr
      rcases thinkIter_root h hti with ⟨hpost, hvis⟩
      rcases ih (fun k => rng (k + 1)) r.post a' hpost hr with ⟨ha', hva'⟩
      refine ⟨ha', ?_⟩
      rw [hva', hvis]
      omega

/-! ## Preservation of `wins ≤ visits` and of the visited-parent property -/

theorem expand_wlv {S A : Type} [DecidableEq A] {B : Board S A}
    {arena : List (MCTSNode A)} {idx : Nat} {s : S} {a : A} {rest : List A}
    (h : InvS arena) (hidx : idx < arena.length)
    (hu : (nodeAt arena idx).untried_actions = a :: rest) (hw : WLV arena) :
    WLV (expArena B arena idx s a rest) := by
  rcases expand_spec B s h hidx hu with ⟨hlen2, hnew, -, -, hfld, -, -⟩
  intro k hk
  rw [hlen2] at hk
  rcases Nat.lt_succ_iff_lt_or_eq.mp hk with hk | hk
  · rw [(hfld k hk).2.2.1, (hfld k hk).2.2.2]
    exact hw k hk
  · rw [hk, hnew]
    exact Nat.le_refl 0

theorem thinkIter_wlv {S A : Type} [DecidableEq A] {B : Board S A} {bot rf : Nat}
    {rho : Nat → Nat} {arena : List (MCTSNode A)} {s0 : S} {r : IterResult S A}
    (h : InvS arena) (hw : WLV arena) (ht : thinkIter B bot rf rho arena s0 = some r) :
    WLV r.post := by
  rcases thinkIter_core h ht with
    ⟨j, st, -, hj, hcase, hpre, hidxlt, -, -, won, -, hpost⟩
  have hwpre : WLV r.pre := by
    rcases hcase with ⟨-, hpe, -⟩ | ⟨a, rest, hu, hpe, -⟩
    · rw [hpe]; exact hw
    · rw [hpe]; exact expand_wlv h hj hu hw
  rw [hpost]
  exact backprop_wlv (invS_pdec hpre) hidxlt (Nat.lt_succ_of_lt hidxlt) hwpre

theorem runIters_wlv {S A : Type} [DecidableEq A] {B : Board S A} {bot rf : Nat} {s0 : S} :
    ∀ (n : Nat) (rng : Nat → Nat → Nat) (arena a' : List (MCTSNode A)), InvS arena →
      WLV arena → runIters B bot rf rng n arena s0 = some a' → WLV a' := by
  intro n
  induction n with
  | zero =>
    intro rng arena a' _ hw hr
    cases hr
    exact hw
  | succ n ih =>
    intro rng arena a' h hw hr
    rw [runIters] at hr
    cases hti : thinkIter B bot rf (rng 0) arena s0 with
    | none => rw [hti] at hr; cases hr
    | some r =>
      rw [hti] at hr
      exact ih (fun k => rng (k + 1)) r.post a' (thinkIter_root h hti).1
        (thinkIter_wlv h hw hti) hr

theorem thinkIter_cv1 {S A : Type} [DecidableEq A] {B : Board S A} {bot rf : Nat}
    {rho : Nat → Nat} {arena : List (MCTSNode A)} {s0 : S} {r : IterResult S A}
    (h : InvS arena) (hc : CV1 arena) (ht : thinkIter B bot rf rho arena s0 = some r) :
    CV1 r.post := by
  rcases thinkIter_core h ht with
    ⟨j, st, -, hj, hcase, hpre, hidxlt, -, -, won, -, hpost⟩
  rw [hpost]
  refine backprop_cv1 (invS_pdec hpre) hidxlt (Nat.lt_succ_of_lt hidxlt) ?_
  rcases hcase with ⟨-, hpe, hie⟩ | ⟨a, rest, hu, hpe, hie⟩
  · intro k hk hck
    rw [hpe] at hk hck ⊢
    exact Or.inl (hc k hk hck)
  · rcases expand_spec B st h hj hu with ⟨hlen2, hnew, -, -, hfld, hne, -⟩
    intro k hk hck
    rw [hpe] at hk hck ⊢
    rw [hpe, hlen2] at *
    rcases Nat.lt_succ_iff_lt_or_eq.mp hk with hk | hk
    · by_cases hkj : k = j
      · refine Or.inr ?_
        rw [hie]
        have hpar : (nodeAt (expArena B arena j st a rest) arena.length).parent = some j := by
          rw [hnew]; rfl
        rw [hlen2]
        simp only [chainTo, hpar]
        rw [hkj]
        exact List.mem_cons_of_mem _ (by simp [chainTo])
      · rw [hne k hkj hk] at hck
        refine Or.inl ?_
        rw [(hfld k hk).2.2.1]
        exact hc k hk hck
    · rw [hk, hnew] at hck
      simp [mkNode] at hck

theorem runIters_cv1 {S A : Type} [DecidableEq A] {B : Board S A} {bot rf : Nat} {s0 : S} :
    ∀ (n : Nat) (rng : Nat → Nat → Nat) (arena a' : List (MCTSNode A)), InvS arena →
      CV1 arena → runIters B bot rf rng n arena s0 = some a' → CV1 a' := by
  intro n
  induction n with
  | zero =>
    intro rng arena a' _ hc hr
    cases hr
    exact hc
  | succ n ih =>
    intro rng arena a' h hc hr
    rw [runIters] at hr
    cases hti : thinkIter B bot rf (rng 0) arena s0 with
    | none => rw [hti] at hr; cases hr
    | some r =>
      rw [hti] at hr
      exact ih (fun k => rng (k + 1)) r.post a' (thinkIter_root h hti).1
        (thinkIter_cv1 h hc hti) hr

/-- Selection on an already-ended state returns the given node and state
unchanged, with no descent and no mutation (the loop body never runs). -/
theorem traverse_ended {S A : Type} {B : Board S A} {arena : List (MCTSNode A)}
    {idx : Nat} {s : S} {bot : Nat} (f : Nat) (h : B.is_ended s = true) :
    traverse_nodes (f + 1) B arena idx s bot = some (idx, s) := by
  rw [traverse_nodes, if_pos h]

/-! ## Node states and the partition invariant -/

theorem nodeState_zero {S A : Type} (B : Board S A) (s0 : S) (arena : List (MCTSNode A))
    (f : Nat) : nodeState B s0 arena (f + 1) 0 = some s0 := by
  simp [nodeState]

theorem nodeState_mono {S A : Type} {B : Board S A} {s0 : S} {arena : List (MCTSNode A)}
    (hp : Pdec arena) :
    ∀ (f f' i : Nat), i < f → i < f' →
      nodeState B s0 arena f i = nodeState B s0 arena f' i := by
  intro f
  induction f with
  | zero => intro f' i hf; cases hf
  | succ f ih =>
    intro f' i hf hf'
    cases f' with
    | zero => cases hf'
    | succ f' =>
      cases i with
      | zero => rw [nodeState_zero, nodeState_zero]
      | succ k =>
        cases hpar : (nodeAt arena (k + 1)).parent with
        | none => simp [nodeState, hpar]
        | some j =>
          cases hpa : (nodeAt arena (k + 1)).parent_action with
          | none => simp [nodeState, hpar, hpa]
          | some a =>
            have hj : j < k + 1 := hp (k + 1) j hpar
            simp only [nodeState, hpar, hpa]
            rw [ih f' j (Nat.lt_of_lt_of_le hj (Nat.lt_succ_iff.mp hf))
              (Nat.lt_of_lt_of_le hj (Nat.lt_succ_iff.mp hf'))]

theorem nodeState_congr {S A : Type} {B : Board S A} {s0 : S}
    {a a' : List (MCTSNode A)} {n : Nat}
    (hfld : ∀ j, j < n → (nodeAt a' j).parent = (nodeAt a j).parent ∧
      (nodeAt a' j).parent_action = (nodeAt a j).parent_action)
    (hp : Pdec a) :
    ∀ (f i : Nat), i < n → nodeState B s0 a' f i = nodeState B s0 a f i := by
  intro f
  induction f with
  | zero => intro i _; rfl
  | succ f ih =>
    intro i hi
    cases i with
    | zero => rw [nodeState_zero, nodeState_zero]
    | succ k =>
      cases hpar : (nodeAt a (k + 1)).parent with
      | none => simp [nodeState, (hfld (k + 1) hi).1, hpar]
      | some j =>
        cases hpa : (nodeAt a (k + 1)).parent_action with
        | none => simp [nodeState, (hfld (k + 1) hi).1, (hfld (k + 1) hi).2, hpar, hpa]
        | some x =>
          have hj : j < k + 1 := hp (k + 1) j hpar
          simp only [nodeState, (hfld (k + 1) hi).1, (hfld (k + 1) hi).2, hpar, hpa]
          rw [ih j (Nat.lt_trans hj hi)]

theorem expand_nodeState {S A : Type} [DecidableEq A] {B : Board S A} {s0 : S}
    {arena : List (MCTSNode A)} {idx : Nat} {st : S} {a : A} {rest : List A}
    (h : InvS arena) (hidx : idx < arena.length)
    (hu : (nodeAt arena idx).untried_actions = a :: rest)
    (hst : nodeState B s0 arena (idx + 1) idx = some st) :
    (∀ f i, i < arena.length →
      nodeState B s0 (expArena B arena idx st a rest) f i = nodeState B s0 arena f i) ∧
    nodeState B s0 (expArena B arena idx st a rest) (arena.length + 1) arena.length =
      some (B.next_state st a) := by
  rcases expand_spec B st h hidx hu with ⟨hlen2, hnew, -, -, hfld, -, -⟩
  have hcongr : ∀ f i, i < arena.length →
      nodeState B s0 (expArena B arena idx st a rest) f i = nodeState B s0 arena f i :=
    nodeState_congr (fun j hj => ⟨(hfld j hj).1, (hfld j hj).2.1⟩) (invS_pdec h)
  refine ⟨hcongr, ?_⟩
  obtain ⟨m, hm⟩ : ∃ m, arena.length = m + 1 := ⟨arena.length - 1, by omega⟩
  have hidx' : idx < m + 1 := by rw [← hm]; exact hidx
  have hnew' : nodeAt (expArena B arena idx st a rest) (m + 1) =
      mkNode (some idx) (some a) (B.legal_actions (B.next_state st a)) := by
    rw [← hm]; exact hnew
  rw [hm]
  simp only [nodeState, hnew', mkNode]
  rw [hcongr (m + 1) idx hidx,
    nodeState_mono (invS_pdec h) (m + 1) (idx + 1) idx hidx' (Nat.lt_succ_self idx), hst]

theorem backprop_nodeState {S A : Type} {B : Board S A} {s0 : S} {w : Bool} {f : Nat}
    {a : List (MCTSNode A)} {i : Nat} (hp : Pdec a) (hi : i < a.length) (hf : i < f) :
    ∀ (g k : Nat), k < a.length →
      nodeState B s0 (backpropagate f a (some i) w) g k = nodeState B s0 a g k := by
  intro g k hk
  exact nodeState_congr
    (fun j _ => ⟨(backprop_fields w hp hi hf j).1, (backprop_fields w hp hi hf j).2.1⟩)
    hp g k hk

theorem expand_part {S A : Type} [DecidableEq A] {B : Board S A} {s0 : S}
    {arena : List (MCTSNode A)} {idx : Nat} {st : S} {a : A} {rest : List A}
    (hnd : ∀ s, (B.legal_actions s).Nodup)
    (h : InvS arena) (hidx : idx < arena.length)
    (hu : (nodeAt arena idx).untried_actions = a :: rest)
    (hst : nodeState B s0 arena (idx + 1) idx = some st)
    (hpart : PART B s0 arena) :
    PART B s0 (expArena B arena idx st a rest) := by
  rcases expand_spec B st h hidx hu with ⟨hlen2, hnew, hun, hch, hfld, hne, -⟩
  rcases expand_nodeState h hidx hu hst with ⟨hcongr, hnewstate⟩
  intro i hi
  rw [hlen2] at hi
  rcases Nat.lt_succ_iff_lt_or_eq.mp hi with hi | hi
  · by_cases hij : i = idx
    · subst hij
      rcases hpart i hi with ⟨s, hs, hperm⟩
      have hseq : st = s := Option.some.inj (hst.symm.trans hs)
      subst hseq
      refine ⟨st, by rw [hcongr (i + 1) i hi]; exact hs, ?_⟩
      rw [hu] at hperm
      have hnodup2 : ((a :: rest) ++ keysOf (nodeAt arena i)).Nodup :=
        (hperm.nodup_iff).mpr (hnd st)
      have hanotin : a ∉ keysOf (nodeAt arena i) := fun hmem =>
        (List.disjoint_of_nodup_append hnodup2) (List.mem_cons_self a rest) hmem
      have hkeys : keysOf (nodeAt (expArena B arena i st a rest) i) =
          keysOf (nodeAt arena i) ++ [a] := by
        rw [keysOf, hch, childInsert_of_not_mem _ a arena.length
          (by simpa [keysOf] using hanotin)]
        simp [keysOf]
      rw [hun, hkeys]
      refine List.Perm.trans ?_ hperm
      have h1 : rest ++ (keysOf (nodeAt arena i) ++ [a]) =
          (rest ++ keysOf (nodeAt arena i)) ++ [a] := by
        rw [List.append_assoc]
      rw [h1]
      have h2 : ((rest ++ keysOf (nodeAt arena i)) ++ [a]).Perm
          ([a] ++ (rest ++ keysOf (nodeAt arena i))) := List.perm_append_comm
      exact h2.trans (by simp)
    · rcases hpart i hi with ⟨s, hs, hperm⟩
      refine ⟨s, by rw [hcongr (i + 1) i hi]; exact hs, ?_⟩
      rw [hne i hij hi]
      exact hperm
  · subst hi
    refine ⟨B.next_state st a, hnewstate, ?_⟩
    rw [hnew]
    simp [mkNode, keysOf]

theorem backprop_part {S A : Type} {B : Board S A} {s0 : S} {w : Bool} {f : Nat}
    {a : List (MCTSNode A)} {i : Nat} (hp : Pdec a) (hi : i < a.length) (hf : i < f)
    (hpart : PART B s0 a) : PART B s0 (backpropagate f a (some i) w) := by
  intro k hk
  rw [length_backpropagate] at hk
  rcases hpart k hk with ⟨s, hs, hperm⟩
  refine ⟨s, by rw [backprop_nodeState hp hi hf (k + 1) k hk]; exact hs, ?_⟩
  rw [(backprop_fields w hp hi hf k).2.2.1]
  rw [keysOf, (backprop_fields w hp hi hf k).2.2.2]
  exact hperm

theorem traverse_state {S A : Type} {B : Board S A} {arena : List (MCTSNode A)}
    {bot : Nat} {s0 : S} (h : InvS arena) :
    ∀ (f idx : Nat) (s : S) (j : Nat) (s' : S), idx < arena.length →
      nodeState B s0 arena (idx + 1) idx = some s →
      traverse_nodes f B arena idx s bot = some (j, s') →
      nodeState B s0 arena (j + 1) j = some s' := by
  intro f
  induction f with
  | zero => intro idx s j s' _ _ ht; cases ht
  | succ f ih =>
    intro idx s j s' hidx hstate ht
    rw [traverse_nodes] at ht
    by_cases hend : B.is_ended s
    · rw [if_pos hend] at ht
      cases ht
      exact hstate
    · rw [if_neg hend] at ht
      cases hu : (nodeAt arena idx).untried_actions with
      | cons a rest =>
        simp only [hu] at ht
        cases ht
        exact hstate
      | nil =>
        simp only [hu] at ht
        cases hbc : bestChild arena (nodeAt arena idx).child_nodes (nodeAt arena idx).visits
            (B.current_player s != bot) with
        | none =>
          simp only [hbc] at ht
          cases ht
          exact hstate
        | some c =>
          simp only [hbc] at ht
          rcases bestChild_mem hbc with ⟨x, hx⟩
          rcases h.2.2.1 idx hidx (x, c) hx with ⟨hlt, hclen, hcp, hpa⟩
          have hlt' : idx < c := hlt
          have hclen' : c < arena.length := hclen
          have hcp' : (nodeAt arena c).parent = some idx := hcp
          have hpa' : (nodeAt arena c).parent_action = some x := hpa
          simp only [hpa'] at ht
          have hcstate : nodeState B s0 arena (c + 1) c = some (B.next_state s x) := by
            obtain ⟨k, hk⟩ : ∃ k, c = k + 1 := ⟨c - 1, by omega⟩
            rw [hk] at hcp' hpa' ⊢
            simp only [nodeState, hcp', hpa']
            rw [nodeState_mono (invS_pdec h) (k + 1) (idx + 1) idx
              (by rw [← hk]; exact hlt') (Nat.lt_succ_self idx), hstate]
          exact ih c (B.next_state s x) j s' hclen' hcstate ht

theorem thinkIter_part {S A : Type} [DecidableEq A] {B : Board S A} {bot rf : Nat}
    {rho : Nat → Nat} {arena : List (MCTSNode A)} {s0 : S} {r : IterResult S A}
    (hnd : ∀ s, (B.legal_actions s).Nodup)
    (h : InvS arena) (hpart : PART B s0 arena)
    (ht : thinkIter B bot rf rho arena s0 = some r) : PART B s0 r.post := by
  rcases thinkIter_core h ht with
    ⟨j, st, htr, hj, hcase, hpre, hidxlt, -, -, won, -, hpost⟩
  have hst : nodeState B s0 arena (j + 1) j = some st :=
    traverse_state h (arena.length + 1) 0 s0 j st h.1 (nodeState_zero B s0 arena 0) htr
  have hppre : PART B s0 r.pre := by
    rcases hcase with ⟨-, hpe, -⟩ | ⟨a, rest, hu, hpe, -⟩
    · rw [hpe]; exact hpart
    · rw [hpe]; exact expand_part hnd h hj hu hst hpart
  rw [hpost]
  exact backprop_part (invS_pdec hpre) hidxlt (Nat.lt_succ_of_lt hidxlt) hppre

theorem runIters_part {S A : Type} [DecidableEq A] {B : Board S A} {bot rf : Nat} {s0 : S}
    (hnd : ∀ s, (B.legal_actions s).Nodup) :
    ∀ (n : Nat) (rng : Nat → Nat → Nat) (arena a' : List (MCTSNode A)), InvS arena →
      PART B s0 arena → runIters B bot rf rng n arena s0 = some a' → PART B s0 a' := by
  intro n
  induction n with
  | zero =>
    intro rng arena a' _ hp hr
    cases hr
    exact hp
  | succ n ih =>
    intro rng arena a' h hp hr
    rw [runIters] at hr
    cases hti : thinkIter B bot rf (rng 0) arena s0 with
    | none => rw [hti] at hr; cases hr
    | some r =>
      rw [hti] at hr
      exact ih (fun k => rng (k + 1)) r.post a' (thinkIter_root h hti).1
        (thinkIter_part hnd h hp hti) hr

/-! ## The root's actions always come from the initial legal actions -/

theorem expand_sub {S A : Type} [DecidableEq A] {B : Board S A} {s0 : S}
    {arena : List (MCTSNode A)} {idx : Nat} {st : S} {a : A} {rest : List A}
    (h : InvS arena) (hidx : idx < arena.length)
    (hu : (nodeAt arena idx).untried_actions = a :: rest)
    (hsub : SUB B s0 arena) : SUB B s0 (expArena B arena idx st a rest) := by
  rcases expand_spec B st h hidx hu with ⟨hlen2, hnew, hun, hch, hfld, hne, -⟩
  by_cases hidx0 : idx = 0
  · subst hidx0
    constructor
    · intro x hx
      rw [hun] at hx
      exact hsub.1 (by rw [hu]; exact List.mem_cons_of_mem a hx)
    · intro x hx
      rw [keysOf, hch] at hx
      simp only [List.mem_map] at hx
      rcases hx with ⟨p, hp, hpx⟩
      rcases mem_childInsert _ a arena.length p hp with rfl | hp'
      · exact hsub.1 (by rw [hu, ← hpx]; exact List.mem_cons_self _ _)
      · exact hsub.2 (by rw [keysOf]; exact List.mem_map.mpr ⟨p, hp', hpx⟩)
  · have h0 : nodeAt (expArena B arena idx st a rest) 0 = nodeAt arena 0 :=
      hne 0 (fun e => hidx0 e.symm) h.1
    constructor
    · rw [h0]; exact hsub.1
    · rw [keysOf, h0]; exact hsub.2

theorem thinkIter_sub {S A : Type} [DecidableEq A] {B : Board S A} {bot rf : Nat}
    {rho : Nat → Nat} {arena : List (MCTSNode A)} {s0 s1 : S} {r : IterResult S A}
    (h : InvS arena) (hsub : SUB B s0 arena)
    (ht : thinkIter B bot rf rho arena s1 = some r) : SUB B s0 r.post := by
  rcases thinkIter_core h ht with
    ⟨j, st, -, hj, hcase, hpre, hidxlt, -, -, won, -, hpost⟩
  have hspre : SUB B s0 r.pre := by
    rcases hcase with ⟨-, hpe, -⟩ | ⟨a, rest, hu, hpe, -⟩
    · rw [hpe]; exact hsub
    · rw [hpe]; exact expand_sub h hj hu hsub
  have hfl := backprop_fields won (invS_pdec hpre) hidxlt (Nat.lt_succ_of_lt hidxlt)
  rw [hpost]
  constructor
  · rw [(hfl 0).2.2.1]; exact hspre.1
  · rw [keysOf, (hfl 0).2.2.2]; exact hspre.2

theorem runIters_sub {S A : Type} [DecidableEq A] {B : Board S A} {bot rf : Nat} {s0 : S} :
    ∀ (n : Nat) (rng : Nat → Nat → Nat) (arena a' : List (MCTSNode A)), InvS arena →
      SUB B s0 arena → runIters B bot rf rng n arena s0 = some a' → SUB B s0 a' := by
  intro n
  induction n with
  | zero =>
    intro rng arena a' _ hs hr
    cases hr
    exact hs
  | succ n ih =>
    intro rng arena a' h hs hr
    rw [runIters] at hr
    cases hti : thinkIter B bot rf (rng 0) arena s0 with
    | none => rw [hti] at hr; cases hr
    | some r =>
      rw [hti] at hr
      exact ih (fun k => rng (k + 1)) r.post a' (thinkIter_root h hti).1
        (thinkIter_sub h hs hti) hr

theorem bestOfFold_mem {A : Type} (arena : List (MCTSNode A)) :
    ∀ (t : List (A × Nat)) (p : A × Nat),
      t.foldl (fun best q => if (nodeAt arena best.2).visits <
        (nodeAt arena q.2).visits then q else best) p = p ∨
      ∃ q ∈ t, t.foldl (fun best q => if (nodeAt arena best.2).visits <
        (nodeAt arena q.2).visits then q else best) p = q := by
  intro t
  induction t with
  | nil => intro p; exact Or.inl rfl
  | cons q t ih =>
    intro p
    simp only [List.foldl_cons]
    rcases ih (if (nodeAt arena p.2).visits < (nodeAt arena q.2).visits then q else p) with
      he | ⟨w, hw, hwe⟩
    · rw [he]
      by_cases hc : (nodeAt arena p.2).visits < (nodeAt arena q.2).visits
      · exact Or.inr ⟨q, List.mem_cons_self q t, by rw [if_pos hc]⟩
      · exact Or.inl (by rw [if_neg hc])
    · exact Or.inr ⟨w, List.mem_cons_of_mem q hw, hwe⟩

theorem bestOf_mem {A : Type} {arena : List (MCTSNode A)} {l : List (A × Nat)}
    {p : A × Nat} (h : bestOf arena l = some p) : p ∈ l := by
  cases l with
  | nil => cases h
  | cons q t =>
    simp only [bestOf, Option.some.injEq] at h
    rcases bestOfFold_mem arena t q with he | ⟨w, hw, hwe⟩
    · rw [he] at h
      rw [← h]
      exact List.mem_cons_self q t
    · rw [hwe] at h
      rw [← h]
      exact List.mem_cons_of_mem q hw

theorem get_best_action_mem {A : Type} {arena : List (MCTSNode A)} {x : A}
    (h : get_best_action arena = some x) : x ∈ keysOf (nodeAt arena 0) := by
  rw [get_best_action] at h
  cases hb : bestOf arena (nodeAt arena 0).child_nodes with
  | none => rw [hb] at h; cases h
  | some p =>
    rw [hb] at h
    simp at h
    rw [keysOf, ← h]
    exact List.mem_map.mpr ⟨p, bestOf_mem hb, rfl⟩

/-! ## The initial one-node arena -/

theorem invS_init {A : Type} (l : List A) : InvS [mkNode none none l] := by
  refine ⟨by simp, rfl, ?_, ?_⟩
  · intro i hi p hp
    simp only [List.length_singleton, Nat.lt_one_iff] at hi
    subst hi
    simp [nodeAt, mkNode] at hp
  · intro i hi hi0
    simp only [List.length_singleton, Nat.lt_one_iff] at hi
    omega

theorem wlv_init {A : Type} (l : List A) : WLV [mkNode none none l] := by
  intro i hi
  simp only [List.length_singleton, Nat.lt_one_iff] at hi
  subst hi
  simp [nodeAt, mkNode]

theorem cv1_init {A : Type} (l : List A) : CV1 [mkNode none none l] := by
  intro i hi hc
  simp only [List.length_singleton, Nat.lt_one_iff] at hi
  subst hi
  simp [nodeAt, mkNode] at hc

theorem part_init {S A : Type} (B : Board S A) (s0 : S) :
    PART B s0 [mkNode none none (B.legal_actions s0)] := by
  intro i hi
  simp only [List.length_singleton, Nat.lt_one_iff] at hi
  subst hi
  exact ⟨s0, nodeState_zero B s0 _ 0, by simp [nodeAt, mkNode, keysOf]⟩

theorem sub_init {S A : Type} (B : Board S A) (s0 : S) :
    SUB B s0 [mkNode none none (B.legal_actions s0)] := by
  constructor
  · intro x hx
    simpa [nodeAt, mkNode] using hx
  · intro x hx
    simp [nodeAt, mkNode, keysOf] at hx

/-! ## `get_best_action` picks the first child with maximal visits -/

theorem foldBest_eq_find {A : Type} (arena : List (MCTSNode A)) :
    ∀ (t : List (A × Nat)) (p : A × Nat),
      some (t.foldl (fun best q => if (nodeAt arena best.2).visits <
        (nodeAt arena q.2).visits then q else best) p) =
      (p :: t).find? (fun q => (nodeAt arena q.2).visits == maxVisits arena (p :: t)) := by
  intro t
  induction t with
  | nil =>
    intro p
    simp [List.find?, maxVisits]
  | cons q t ih =>
    intro p
    simp only [List.foldl_cons]
    by_cases hc : (nodeAt arena p.2).visits < (nodeAt arena q.2).visits
    · rw [if_pos hc, ih q]
      have hm : maxVisits arena (p :: q :: t) = maxVisits arena (q :: t) := by
        simp only [maxVisits, List.foldr_cons]
        exact Nat.max_eq_right (Nat.le_trans (Nat.le_of_lt hc) (Nat.le_max_left _ _))
      rw [hm]
      have hneg : ¬ ((fun x => (nodeAt arena x.2).visits == maxVisits arena (q :: t)) p = true) := by
        simp only [beq_iff_eq]
        exact Nat.ne_of_lt (Nat.lt_of_lt_of_le hc
          (by simp only [maxVisits, List.foldr_cons]; exact Nat.le_max_left _ _))
      rw [@List.find?_cons_of_neg _
        (fun x => (nodeAt arena x.2).visits == maxVisits arena (q :: t)) p (q :: t) hneg]
    · rw [if_neg hc, ih p]
      have hqp : (nodeAt arena q.2).visits ≤ (nodeAt arena p.2).visits := Nat.le_of_not_lt hc
      have hm : maxVisits arena (p :: q :: t) = maxVisits arena (p :: t) := by
        simp only [maxVisits, List.foldr_cons]
        rw [← Nat.max_assoc, Nat.max_eq_left hqp]
      rw [hm]
      have hpM : (nodeAt arena p.2).visits ≤ maxVisits arena (p :: t) := by
        simp only [maxVisits, List.foldr_cons]
        exact Nat.le_max_left _ _
      by_cases hp : (nodeAt arena p.2).visits = maxVisits arena (p :: t)
      · have h1 : (p :: t).find?
            (fun x => (nodeAt arena x.2).visits == maxVisits arena (p :: t)) = some p :=
          @List.find?_cons_of_pos _
            (fun x => (nodeAt arena x.2).visits == maxVisits arena (p :: t)) p t (by simp [hp])
        have h2 : (p :: q :: t).find?
            (fun x => (nodeAt arena x.2).visits == maxVisits arena (p :: t)) = some p :=
          @List.find?_cons_of_pos _
            (fun x => (nodeAt arena x.2).visits == maxVisits arena (p :: t)) p (q :: t)
            (by simp [hp])
        rw [h1, h2]
      · have hq : ¬ ((nodeAt arena q.2).visits = maxVisits arena (p :: t)) := by
          intro he
          exact hp (Nat.le_antisymm hpM (he ▸ hqp))
        have h1 : (p :: t).find?
            (fun x => (nodeAt arena x.2).visits == maxVisits arena (p :: t)) =
            t.find? (fun x => (nodeAt arena x.2).visits == maxVisits arena (p :: t)) :=
          @List.find?_cons_of_neg _
            (fun x => (nodeAt arena x.2).visits == maxVisits arena (p :: t)) p t (by simp [hp])
        have h2 : (p :: q :: t).find?
            (fun x => (nodeAt arena x.2).visits == maxVisits arena (p :: t)) =
            t.find? (fun x => (nodeAt arena x.2).visits == maxVisits arena (p :: t)) := by
          rw [@List.find?_cons_of_neg _
            (fun x => (nodeAt arena x.2).visits == maxVisits arena (p :: t)) p (q :: t)
            (by simp [hp])]
          rw [@List.find?_cons_of_neg _
            (fun x => (nodeAt arena x.2).visits == maxVisits arena (p :: t)) q t
            (by simp [hq])]
        rw [h1, h2]

theorem bestOf_eq_spec {A : Type} (arena : List (MCTSNode A)) (l : List (A × Nat)) :
    (bestOf arena l).map Prod.fst = specBestAction arena l := by
  cases l with
  | nil => rfl
  | cons p t =>
    rw [specBestAction]
    simp only [bestOf]
    rw [foldBest_eq_find arena t p]

theorem get_best_action_eq_spec {A : Type} (arena : List (MCTSNode A)) :
    get_best_action arena = specBestAction arena (nodeAt arena 0).child_nodes := by
  rw [get_best_action]
  exact bestOf_eq_spec arena _

/-! ## UCB scoring facts -/

theorem ucb_unvisited {A : Type} (node : MCTSNode A) (pv : Nat) (opp : Bool)
    (h : node.visits = 0) : ucb node pv opp = ⊤ := by
  rw [ucb, if_pos h]

theorem ucb_visited {A : Type} (node : MCTSNode A) (pv : Nat) (opp : Bool)
    (h : node.visits ≠ 0) :
    ucb node pv opp =
      (((if opp then 1 - (node.wins : ℝ) / (node.visits : ℝ)
         else (node.wins : ℝ) / (node.visits : ℝ)) +
        2 * Real.sqrt (Real.log (pv : ℝ) / (node.visits : ℝ)) : ℝ) : EReal) := by
  rw [ucb, if_neg h]
  norm_num [explore_constant]

theorem ucb_finite_lt_unvisited {A : Type} (c d : MCTSNode A) (pvc pvd : Nat)
    (oc od : Bool) (hc : c.visits = 0) (hd : d.visits ≠ 0) :
    ucb d pvd od < ucb c pvc oc := by
  rw [ucb_unvisited c pvc oc hc, ucb, if_neg hd]
  exact EReal.coe_lt_top _

/-! ## Outcome queries -/

theorem is_win_none {S A : Type} (B : Board S A) (s : S) (i : Nat)
    (h : B.points_values s = none) : is_win B s i = none := by
  rw [is_win, h]

theorem is_win_some {S A : Type} (B : Board S A) (s : S) (i : Nat)
    (outcome : Nat → ℚ) (h : B.points_values s = some outcome) :
    is_win B s i = some true ↔ outcome i = 1 := by
  rw [is_win, h]
  simp

/-! ## The terminal short-circuit and the empty-children failure of `think` -/

theorem thinkIter_lone {S A : Type} [DecidableEq A] {B : Board S A} {bot rf : Nat}
    {s : S} (rho : Nat → Nat) (hend : B.is_ended s = true) (nd : MCTSNode A)
    (hu : nd.untried_actions = []) (hp : nd.parent = none) :
    thinkIter B bot rf rho [nd] s = none ∨
    ∃ w, thinkIter B bot rf rho [nd] s = some ⟨[nd], 0, s, [incNode nd w]⟩ := by
  have htrav : traverse_nodes ([nd].length + 1) B [nd] 0 s bot = some (0, s) :=
    traverse_ended 1 hend
  have hnode : nodeAt [nd] 0 = nd := rfl
  rw [thinkIter]
  simp only [htrav, hnode, hu]
  cases rf with
  | zero =>
    left
    rw [finishIter]
    simp [rollout]
  | succ g =>
    have hroll : rollout (g + 1) B s rho = some s := by
      rw [rollout, if_pos hend]
    rw [finishIter]
    simp only [hroll]
    cases hpv : B.points_values s with
    | none =>
      left
      rw [is_win, hpv]
    | some outcome =>
      right
      refine ⟨decide (outcome bot = 1), ?_⟩
      rw [is_win, hpv]
      simp only [Option.some.injEq]
      have hback : backpropagate ([nd].length + 1) [nd] (some 0) (decide (outcome bot = 1)) =
          [incNode nd (decide (outcome bot = 1))] := by
        show backpropagate 2 [nd] (some 0) _ = _
        rw [backpropagate]
        have : setNode [nd] 0 (incNode (nodeAt [nd] 0) (decide (outcome bot = 1))) =
            [incNode nd (decide (outcome bot = 1))] := rfl
        rw [this, hnode, hp]
        rfl
      rw [hback]

theorem runIters_lone {S A : Type} [DecidableEq A] {B : Board S A} {bot rf : Nat}
    {s : S} (hend : B.is_ended s = true) :
    ∀ (n : Nat) (rng : Nat → Nat → Nat) (nd : MCTSNode A), nd.untried_actions = [] →
      nd.child_nodes = [] → nd.parent = none →
      runIters B bot rf rng n [nd] s = none ∨
      ∃ nd' : MCTSNode A, runIters B bot rf rng n [nd] s = some [nd'] ∧
        nd'.child_nodes = [] := by
  intro n
  induction n with
  | zero => intro rng nd hu hc hp; exact Or.inr ⟨nd, rfl, hc⟩
  | succ n ih =>
    intro rng nd hu hc hp
    rw [runIters]
    rcases thinkIter_lone (rng 0) hend nd hu hp with hnone | ⟨w, hsome⟩
    · rw [hnone]
      exact Or.inl rfl
    · rw [hsome]
      exact ih (fun k => rng (k + 1)) (incNode nd w) (by simp [hu]) (by simp [hc])
        (by simp [hp])

theorem think_ended_none {S A : Type} [DecidableEq A] {B : Board S A} {s : S}
    (hend : B.is_ended s = true) (hlegal : B.legal_actions s = [])
    (rf : Nat) (rng : Nat → Nat → Nat) : think B s rf rng = none := by
  rw [think, thinkArena]
  rcases @runIters_lone S A _ B (B.current_player s) rf s hend num_nodes rng
      (mkNode none none (B.legal_actions s))
      (by simp [mkNode, hlegal]) rfl rfl with hnone | ⟨nd', hsome, hc⟩
  · simp only [hnone]
  · simp only [hsome]
    have h0 : (nodeAt [nd'] 0).child_nodes = [] := hc
    simp [get_best_action, h0, bestOf]

/-! ## Last helpers: disjoint reading of the partition, key membership,
unconditional `wins ≤ visits` preservation -/

theorem part_disjoint {S A : Type} {B : Board S A} {s0 : S} {arena : List (MCTSNode A)}
    (hpart : PART B s0 arena) (hnd : ∀ s, (B.legal_actions s).Nodup) :
    ∀ i, i < arena.length → ∃ s, nodeState B s0 arena (i + 1) i = some s ∧
      (∀ x ∈ (nodeAt arena i).untried_actions, x ∉ keysOf (nodeAt arena i)) ∧
      (∀ x, (x ∈ (nodeAt arena i).untried_actions ∨ x ∈ keysOf (nodeAt arena i)) ↔
        x ∈ B.legal_actions s) := by
  intro i hi
  rcases hpart i hi with ⟨s, hs, hperm⟩
  refine ⟨s, hs, ?_, ?_⟩
  · have hnodup : ((nodeAt arena i).untried_actions ++ keysOf (nodeAt arena i)).Nodup :=
      (hperm.nodup_iff).mpr (hnd s)
    exact fun x hx => fun hk => (List.disjoint_of_nodup_append hnodup) hx hk
  · intro x
    rw [← List.mem_append]
    exact hperm.mem_iff

theorem mem_keys_childInsert {A : Type} [DecidableEq A] :
    ∀ (cs : List (A × Nat)) (a : A) (c : Nat), a ∈ (childInsert cs a c).map Prod.fst
  | [], a, c => by simp [childInsert]
  | p :: rest, a, c => by
    by_cases hp : p.1 = a
    · simp [childInsert, hp]
    · simp only [childInsert, if_neg hp, List.map_cons, List.mem_cons]
      exact Or.inr (mem_keys_childInsert rest a c)

theorem backprop_wlv_any {A : Type} :
    ∀ (f : Nat) (arena : List (MCTSNode A)) (o : Option Nat) (w : Bool),
      WLV arena → WLV (backpropagate f arena o w) := by
  intro f
  induction f with
  | zero => intro arena o w h; exact h
  | succ f ih =>
    intro arena o w h
    cases o with
    | none => exact h
    | some i =>
      rw [backpropagate]
      refine ih _ _ w ?_
      intro j hj
      rw [length_setNode] at hj
      by_cases hji : j = i
      · subst hji
        rw [nodeAt_setNode_self arena j _ hj]
        simp only [incNode_wins, incNode_visits]
        have := h j hj
        cases w <;> simp <;> omega
      · rw [nodeAt_setNode_ne arena i _ j hji]
        exact h j hj

/-! ## The claims -/

/-- Claim C1: for every completed iteration of `think`, backpropagation walks
from the expansion node up through parent references to the root inclusive
(the chain `chainTo` of parent references contains the expansion node and
node 0), and on every node of that path it increments `visits` by exactly 1
and `wins` by exactly 1 if and only if the rollout's terminal state is a win
for the player to move at the root (`is_win` of the final state at
`current_player` of the root state, the identity fixed at the start of
`think`); the same win/loss bit `won` is applied uniformly to the whole path
with no flipping by node depth, and nodes off the path are untouched. -/
theorem c1_backprop_full_path {S A : Type} [DecidableEq A] (B : Board S A)
    (current_state : S) (rf : Nat) (rho : Nat → Nat) (arena : List (MCTSNode A))
    (r : IterResult S A) (h : InvS arena)
    (ht : thinkIter B (B.current_player current_state) rf rho arena current_state = some r) :
    ∃ won, is_win B r.final (B.current_player current_state) = some won ∧
      0 ∈ chainTo (r.pre.length + 1) r.pre (some r.idx) ∧
      r.idx ∈ chainTo (r.pre.length + 1) r.pre (some r.idx) ∧
      (∀ j ∈ chainTo (r.pre.length + 1) r.pre (some r.idx),
        (nodeAt r.post j).visits = (nodeAt r.pre j).visits + 1 ∧
        (nodeAt r.post j).wins = (nodeAt r.pre j).wins + (if won then 1 else 0)) ∧
      (∀ j, j ∉ chainTo (r.pre.length + 1) r.pre (some r.idx) →
        nodeAt r.post j = nodeAt r.pre j) := by
  rcases thinkIter_core h ht with ⟨j, st, -, -, -, hpre, hidxlt, -, -, won, hwin, hpost⟩
  have hflt : r.idx < r.pre.length + 1 := Nat.lt_succ_of_lt hidxlt
  rcases backprop_spec won (r.pre.length + 1) r.pre r.idx (invS_pdec hpre) hidxlt hflt with
    ⟨hin, hout⟩
  refine ⟨won, hwin, chain_reaches_root hpre _ r.idx hidxlt hflt,
    chain_head r.pre r.pre.length r.idx, ?_, ?_⟩
  · intro k hk
    rw [hpost, hin k hk]
    exact ⟨rfl, rfl⟩
  · intro k hk
    rw [hpost]
    exact hout k hk

theorem c1_witness :
    InvS [mkNode none none [7]] ∧
    (∃ won, is_win B1 r1B1.final (B1.current_player 0) = some won ∧
      0 ∈ chainTo (r1B1.pre.length + 1) r1B1.pre (some r1B1.idx) ∧
      r1B1.idx ∈ chainTo (r1B1.pre.length + 1) r1B1.pre (some r1B1.idx) ∧
      (∀ j ∈ chainTo (r1B1.pre.length + 1) r1B1.pre (some r1B1.idx),
        (nodeAt r1B1.post j).visits = (nodeAt r1B1.pre j).visits + 1 ∧
        (nodeAt r1B1.post j).wins = (nodeAt r1B1.pre j).wins + (if won then 1 else 0)) ∧
      (∀ j, j ∉ chainTo (r1B1.pre.length + 1) r1B1.pre (some r1B1.idx) →
        nodeAt r1B1.post j = nodeAt r1B1.pre j)) :=
  ⟨invS_init [7],
   c1_backprop_full_path B1 0 1 (fun _ => 0) [mkNode none none [7]] r1B1
     (invS_init [7]) (by rfl)⟩

/-- Claim C2: `ucb(node, is_opponent)` returns positive infinity (`⊤`)
whenever `node.visits = 0`, and otherwise returns
`win_rate + 2 * sqrt (ln (parent.visits) / node.visits)` with
`win_rate = wins / visits`, replaced by `1 - wins / visits` when
`is_opponent`; consequently every unvisited node's score is strictly greater
than any finite score of a visited node. -/
theorem c2_ucb_formula :
    (∀ (A : Type) (node : MCTSNode A) (pv : Nat) (opp : Bool),
      node.visits = 0 → ucb node pv opp = ⊤) ∧
    (∀ (A : Type) (node : MCTSNode A) (pv : Nat) (opp : Bool), node.visits ≠ 0 →
      ucb node pv opp = (((if opp then 1 - (node.wins : ℝ) / (node.visits : ℝ)
        else (node.wins : ℝ) / (node.visits : ℝ)) +
        2 * Real.sqrt (Real.log (pv : ℝ) / (node.visits : ℝ)) : ℝ) : EReal)) ∧
    (∀ (A : Type) (c d : MCTSNode A) (pvc pvd : Nat) (oc od : Bool),
      c.visits = 0 → d.visits ≠ 0 → ucb d pvd od < ucb c pvc oc) :=
  ⟨fun A node pv opp h => ucb_unvisited node pv opp h,
   fun A node pv opp h => ucb_visited node pv opp h,
   fun A c d pvc pvd oc od hc hd => ucb_finite_lt_unvisited c d pvc pvd oc od hc hd⟩

theorem c2_witness :
    ucb (mkNode (none : Option Nat) none ([] : List Nat)) 3 false = ⊤ ∧
    ucb { parent := none, parent_action := (none : Option Nat), visits := 2,
          wins := 1, untried_actions := ([] : List Nat), child_nodes := [] } 3 false <
      ucb (mkNode (none : Option Nat) none ([] : List Nat)) 5 true :=
  ⟨c2_ucb_formula.1 Nat (mkNode none none []) 3 false rfl,
   c2_ucb_formula.2.2 Nat (mkNode none none [])
     { parent := none, parent_action := none, visits := 2, wins := 1,
       untried_actions := [], child_nodes := [] } 5 3 true false rfl (by decide)⟩

/-- Claim C3: whenever `think` completes its fixed budget of `num_nodes = 50`
iterations (the tree-building loop `thinkArena` returns an arena), the root
node's visits equal exactly `num_nodes`: every iteration's backpropagation
reaches and increments the root. -/
theorem c3_root_visits_budget {S A : Type} [DecidableEq A] (B : Board S A)
    (current_state : S) (rf : Nat) (rng : Nat → Nat → Nat)
    (arena : List (MCTSNode A)) (h : thinkArena B current_state rf rng = some arena) :
    (nodeAt arena 0).visits = num_nodes ∧ num_nodes = 50 := by
  rw [thinkArena] at h
  have hv := runIters_visits num_nodes rng _ arena (invS_init _) h
  refine ⟨?_, rfl⟩
  rw [hv.2]
  simp [nodeAt, mkNode]

theorem c3_witness :
    thinkArena B1 0 1 (fun _ _ => 0) = some arena50 ∧
    (nodeAt arena50 0).visits = num_nodes ∧ num_nodes = 50 :=
  ⟨by rfl, c3_root_visits_budget B1 0 1 (fun _ _ => 0) arena50 (by rfl)⟩

/-- Claim C4: `get_best_action` returns the key of the root's child mapping
whose child node has the maximum visits count, ties broken by encounter order
of the mapping (first maximum wins) — it coincides with the spec-side
selector `specBestAction`; and over a root whose children A(=1), B(=2), C(=3)
have visit counts 3, 7, 1 it returns B(=2). -/
theorem c4_best_action_by_visits :
    (∀ (A : Type) (arena : List (MCTSNode A)),
      get_best_action arena = specBestAction arena (nodeAt arena 0).child_nodes) ∧
    get_best_action c4Arena = some 2 :=
  ⟨fun A arena => get_best_action_eq_spec arena, by rfl⟩

/-- Claim C5 counterexample: on the concrete oracle `B0`, whose initial state
is already ended and has no legal actions, `think` does not return an action:
it fails in `get_best_action` (`max` over the root's empty child mapping,
modelled by `none`), so "calling the search does not crash" is false as
stated. -/
theorem c5_counterexample : B0.is_ended 0 = true ∧ think B0 0 1 (fun _ _ => 0) = none :=
  ⟨rfl, by rfl⟩

/-- Claim C5 (amended): for every state on which `is_ended` is already true,
the selection phase (`traverse_nodes`) immediately returns the given node and
state unmodified, performing no descent and no mutation; `think` itself,
however, fails (returns no action — the reference raises `ValueError` in
`max` over the root's empty child mapping) when such a state also has no
legal actions, since the root then never gains a child. -/
theorem c5_terminal_short_circuit :
    (∀ (S A : Type) (B : Board S A) (arena : List (MCTSNode A)) (idx : Nat) (s : S)
      (bot f : Nat), B.is_ended s = true →
        traverse_nodes (f + 1) B arena idx s bot = some (idx, s)) ∧
    (∀ (S A : Type) [DecidableEq A] (B : Board S A) (s : S) (rf : Nat)
      (rng : Nat → Nat → Nat), B.is_ended s = true → B.legal_actions s = [] →
        think B s rf rng = none) := by
  constructor
  · intro S A B arena idx s bot f h
    exact traverse_ended f h
  · intro S A inst B s rf rng hend hlegal
    exact think_ended_none hend hlegal rf rng

theorem c5_witness :
    traverse_nodes 2 B0 [mkNode none none ([] : List Nat)] 0 0 1 = some (0, 0) ∧
    think B0 0 1 (fun _ _ => 0) = none :=
  ⟨c5_terminal_short_circuit.1 Nat Nat B0 [mkNode none none []] 0 0 1 1 rfl,
   c5_terminal_short_circuit.2 Nat Nat B0 0 1 (fun _ _ => 0) rfl rfl⟩

/-- Claim C6: for an oracle whose legal-action lists are duplicate-free, at
the start of `think` and after every completed iteration every node's
untried-actions set and child-mapping keys are disjoint and their union is
exactly the legal actions of the state that node stands for; and each
`expand_leaf` call preserves this partition by removing exactly one action
from the untried set and registering it as a child key. -/
theorem c6_partition {S A : Type} [DecidableEq A] (B : Board S A) (s0 : S)
    (hnd : ∀ s, (B.legal_actions s).Nodup) :
    PART B s0 [mkNode none none (B.legal_actions s0)] ∧
    (∀ (rf : Nat) (rng : Nat → Nat → Nat) (arena : List (MCTSNode A)),
      thinkArena B s0 rf rng = some arena →
      ∀ i, i < arena.length → ∃ s, nodeState B s0 arena (i + 1) i = some s ∧
        (∀ x ∈ (nodeAt arena i).untried_actions, x ∉ keysOf (nodeAt arena i)) ∧
        (∀ x, (x ∈ (nodeAt arena i).untried_actions ∨ x ∈ keysOf (nodeAt arena i)) ↔
          x ∈ B.legal_actions s)) ∧
    (∀ (arena : List (MCTSNode A)) (idx : Nat) (s : S) (a : A) (rest : List A),
      InvS arena → idx < arena.length →
      (nodeAt arena idx).untried_actions = a :: rest →
      expand_leaf B arena idx s =
        some (expArena B arena idx s a rest, arena.length, B.next_state s a) ∧
      (nodeAt (expArena B arena idx s a rest) idx).untried_actions = rest ∧
      a ∈ keysOf (nodeAt (expArena B arena idx s a rest) idx) ∧
      (expArena B arena idx s a rest).length = arena.length + 1) ∧
    (∀ (arena : List (MCTSNode A)) (idx : Nat) (st : S) (a : A) (rest : List A),
      InvS arena → PART B s0 arena → idx < arena.length →
      (nodeAt arena idx).untried_actions = a :: rest →
      nodeState B s0 arena (idx + 1) idx = some st →
      PART B s0 (expArena B arena idx st a rest)) := by
  refine ⟨part_init B s0, ?_, ?_, ?_⟩
  · intro rf rng arena h
    rw [thinkArena] at h
    exact part_disjoint
      (runIters_part hnd num_nodes rng _ arena (invS_init _) (part_init B s0) h) hnd
  · intro arena idx s a rest h hidx hu
    rcases expand_spec B s h hidx hu with ⟨hlen2, -, hun, hch, -, -, -⟩
    refine ⟨expand_leaf_eq B s hu, hun, ?_, hlen2⟩
    rw [keysOf, hch]
    exact mem_keys_childInsert _ a arena.length
  · intro arena idx st a rest h hp hidx hu hst
    exact expand_part hnd h hidx hu hst hp

theorem c6_witness :
    (∀ s, (B1.legal_actions s).Nodup) ∧
    PART B1 0 [mkNode none none (B1.legal_actions 0)] ∧
    (∃ s, nodeState B1 0 arena50 (0 + 1) 0 = some s ∧
      (∀ x ∈ (nodeAt arena50 0).untried_actions, x ∉ keysOf (nodeAt arena50 0)) ∧
      (∀ x, (x ∈ (nodeAt arena50 0).untried_actions ∨ x ∈ keysOf (nodeAt arena50 0)) ↔
        x ∈ B1.legal_actions s)) := by
  have hnd : ∀ s, (B1.legal_actions s).Nodup := by
    intro s
    by_cases hs : s = 0 <;> simp [B1, hs]
  exact ⟨hnd, (c6_partition B1 0 hnd).1,
    (c6_partition B1 0 hnd).2.1 1 (fun _ _ => 0) arena50 (by rfl) 0 (by decide)⟩

/-- Claim C7: `wins ≤ visits` on every node at every point during a `think`
call: both counters start at 0 at node construction, `backpropagate` (for any
start node and fuel) preserves the bound on every node, and every arena a
completed tree-building run returns satisfies it. -/
theorem c7_wins_le_visits :
    (∀ (A : Type) (p : Option Nat) (pa : Option A) (l : List A),
      (mkNode p pa l).visits = 0 ∧ (mkNode p pa l).wins = 0) ∧
    (∀ (A : Type) (f : Nat) (arena : List (MCTSNode A)) (o : Option Nat) (w : Bool),
      WLV arena → WLV (backpropagate f arena o w)) ∧
    (∀ (S A : Type) [DecidableEq A] (B : Board S A) (s0 : S) (rf : Nat)
      (rng : Nat → Nat → Nat) (arena : List (MCTSNode A)),
      thinkArena B s0 rf rng = some arena → WLV arena) := by
  refine ⟨fun A p pa l => ⟨rfl, rfl⟩,
    fun A f arena o w h => backprop_wlv_any f arena o w h, ?_⟩
  intro S A inst B s0 rf rng arena h
  rw [thinkArena] at h
  exact runIters_wlv num_nodes rng _ arena (invS_init _) (wlv_init _) h

theorem c7_witness :
    ((mkNode (none : Option Nat) (none : Option Nat) ([] : List Nat)).visits = 0 ∧
      (mkNode (none : Option Nat) (none : Option Nat) ([] : List Nat)).wins = 0) ∧
    WLV (backpropagate 2 c4Arena (some 1) true) ∧ WLV arena50 :=
  ⟨c7_wins_le_visits.1 Nat none none [],
   c7_wins_le_visits.2.1 Nat 2 c4Arena (some 1) true (by unfold WLV; decide),
   c7_wins_le_visits.2.2 Nat Nat B1 0 1 (fun _ _ => 0) arena50 (by rfl)⟩

/-- Claim C8: whenever selection scores a visited child, the scored node's
parent has `visits ≥ 1` — children are only scored at a node whose child
mapping is nonempty, and the invariant `CV1` (every node with a child has
been visited) holds for the initial arena and is preserved by every completed
iteration; hence the argument of `ln (parent.visits)` in `ucb` is positive
and the logarithm is defined (it inverts `exp`), so the computation never
fails on a domain error. -/
theorem c8_ucb_log_defined :
    (∀ (A : Type) (l : List A), CV1 [mkNode none none l]) ∧
    (∀ (S A : Type) [DecidableEq A] (B : Board S A) (bot rf : Nat) (rho : Nat → Nat)
      (arena : List (MCTSNode A)) (s0 : S) (r : IterResult S A),
      InvS arena → CV1 arena → thinkIter B bot rf rho arena s0 = some r →
        CV1 r.post) ∧
    (∀ (A : Type) (arena : List (MCTSNode A)), CV1 arena →
      ∀ j, j < arena.length → (nodeAt arena j).child_nodes ≠ [] →
        1 ≤ (nodeAt arena j).visits ∧ (0 : ℝ) < ((nodeAt arena j).visits : ℝ) ∧
        Real.exp (Real.log ((nodeAt arena j).visits : ℝ)) =
          ((nodeAt arena j).visits : ℝ)) := by
  refine ⟨fun A l => cv1_init l, ?_, ?_⟩
  · intro S A inst B bot rf rho arena s0 r h hc ht
    exact thinkIter_cv1 h hc ht
  · intro A arena hc j hj hcj
    have h1 := hc j hj hcj
    have h2 : (0 : ℝ) < ((nodeAt arena j).visits : ℝ) := by
      exact_mod_cast Nat.lt_of_lt_of_le Nat.zero_lt_one h1
    exact ⟨h1, h2, Real.exp_log h2⟩

theorem c8_witness :
    CV1 [mkNode none none ([7] : List Nat)] ∧ CV1 r1B1.post ∧
    (1 ≤ (nodeAt r1B1.post 0).visits ∧ (0 : ℝ) < ((nodeAt r1B1.post 0).visits : ℝ) ∧
      Real.exp (Real.log ((nodeAt r1B1.post 0).visits : ℝ)) =
        ((nodeAt r1B1.post 0).visits : ℝ)) := by
  have h1 := c8_ucb_log_defined.1 Nat ([7] : List Nat)
  have h2 := c8_ucb_log_defined.2.1 Nat Nat B1 1 1 (fun _ => 0)
    [mkNode none none [7]] 0 r1B1 (invS_init [7]) h1 (by rfl)
  have h3 := c8_ucb_log_defined.2.2 Nat r1B1.post h2 0 (by decide) (by decide)
  exact ⟨h1, h2, h3⟩

/-- Claim C9: on a state where the oracle's outcome mapping is undefined
(`points_values` is `none`, a non-terminal state), `is_win` fails loudly
(returns no value — the fatal assertion) rather than a default; on a state
with an outcome it returns true exactly when the bot identity's score equals
1. -/
theorem c9_is_win_assert :
    (∀ (S A : Type) (B : Board S A) (s : S) (i : Nat),
      B.points_values s = none → is_win B s i = none) ∧
    (∀ (S A : Type) (B : Board S A) (s : S) (i : Nat) (outcome : Nat → ℚ),
      B.points_values s = some outcome → (is_win B s i = some true ↔ outcome i = 1)) :=
  ⟨fun S A B s i h => is_win_none B s i h,
   fun S A B s i outcome h => is_win_some B s i outcome h⟩

theorem c9_witness :
    is_win B1 0 1 = none ∧
    (is_win B1 1 1 = some true ↔ (fun i => if i = 1 then (1 : ℚ) else 0) 1 = 1) :=
  ⟨c9_is_win_assert.1 Nat Nat B1 0 1 rfl,
   c9_is_win_assert.2 Nat Nat B1 1 1 (fun i => if i = 1 then (1 : ℚ) else 0) rfl⟩

/-- Claim C10: whenever `think` returns an action, that action is an element
of the oracle's legal-actions sequence for the input state: every root child
key was removed from the root's untried set, which was initialised from
`legal_actions(current_state)`, and `get_best_action` only returns such a
key. -/
theorem c10_think_returns_legal {S A : Type} [DecidableEq A] (B : Board S A)
    (s : S) (rf : Nat) (rng : Nat → Nat → Nat) (a : A)
    (h : think B s rf rng = some a) : a ∈ B.legal_actions s := by
  rw [think] at h
  cases ha : thinkArena B s rf rng with
  | none => simp only [ha] at h; cases h
  | some arena =>
    simp only [ha] at h
    rw [thinkArena] at ha
    have hsub := runIters_sub num_nodes rng _ arena (invS_init _) (sub_init B s) ha
    exact hsub.2 (get_best_action_mem h)

theorem c10_witness :
    think B1 0 1 (fun _ _ => 0) = some 7 ∧ 7 ∈ B1.legal_actions 0 :=
  ⟨by rfl, c10_think_returns_legal B1 0 1 (fun _ _ => 0) 7 (by rfl)⟩

end MCTS
